import Mathlib

/-!
Verification of the Tableau workbook documentation generator's core
(field-level lineage reconstruction).

The Python sources are shallowly embedded below:
- `src/src/field_dependencies_extractor.py` (class FieldDependenciesAnalyzer)
- `src/src/tableau_fields_analyzer.py` (class TableauFieldsAnalyzer)
- `src/src/field_dependencies_network.py` (class FieldDependenciesNetworkVisualizer)

Modelling conventions:
- XML documents (`xml.etree.ElementTree`) are modelled by the inductive
  `Xml`; `findall(".//tag")` is "all proper descendants with that tag, in
  document (pre-)order", `find(".//tag")` is the first such descendant,
  `get(attr, default)` is an association-list read with a default.
- Python `dict` is an insertion-ordered association list: assignment
  (`d[k] = v`) is `dictSet` (update in place, append if new), the
  guarded insertion (`if k not in d: d[k] = v`) is `dictInsertIfAbsent`.
- Python `set` of strings is an insertion-ordered duplicate-free list
  (`setAdd`); only its membership, cardinality and sorted view are ever
  consumed downstream, so the representation order is immaterial.
- Python string operations are embedded as executable `List Char`
  functions: `lexLe` (code-point lexicographic `<=`, as used by
  `sorted`), `pyStartsWith` (`str.startswith`), `pyUpper` (`str.upper`,
  ASCII letters), `pyStrip` (`str.strip`, ASCII whitespace),
  `splitPipe` (`str.split(" | ")`), `joinPipe` (`" | ".join`),
  `pySlice1m1` (`s[1:-1]`), `splitOnChar` (`str.split(":")`).
- Python's `sorted` / `list.sort` are stable sorts; they are embedded as
  the stable insertion sort `sortLe` with the same comparator (any two
  stable sorts for the same total preorder produce the same list, so the
  outputs agree element-wise).
-/

/-- Insert an element into a list before the first entry it compares
less-or-equal to. -/
def insertLe {α : Type} (le : α → α → Bool) (a : α) : List α → List α
  | [] => [a]
  | b :: l => if le a b then a :: b :: l else b :: insertLe le a l

/-- Stable insertion sort: the embedding of Python's stable `sorted` /
`list.sort` for a total preorder comparator. -/
def sortLe {α : Type} (le : α → α → Bool) : List α → List α
  | [] => []
  | a :: l => insertLe le a (sortLe le l)

/-- Code-point lexicographic comparison of character lists: the order used
by Python when sorting lists of strings. -/
def lexLe : List Char → List Char → Bool
  | [], _ => true
  | _ :: _, [] => false
  | a :: as, b :: bs =>
      if a < b then true
      else if b < a then false
      else lexLe as bs

/-- Comparison of strings by code points, embedding Python's `<=` on `str`. -/
def strLeB (a b : String) : Bool :=
  lexLe a.data b.data

/-- Python `str.startswith`. -/
def pyStartsWith (s pre : String) : Bool :=
  pre.data.isPrefixOf s.data

/-- Python `str.upper` (ASCII letters; all strings compared against it in the
source are ASCII keywords). -/
def pyUpper (s : String) : String :=
  ⟨s.data.map Char.toUpper⟩

/-- Python `s[1:-1]`: drop the first and the last character. -/
def pySlice1m1 (l : List Char) : List Char :=
  (l.drop 1).dropLast

/-- ASCII whitespace characters stripped by Python `str.strip()`. -/
def isPySpace (c : Char) : Bool :=
  c = ' ' ∨ c = '\t' ∨ c = '\n' ∨ c = '\r' ∨ c = '\x0b' ∨ c = '\x0c'

/-- Python `str.strip()` on the character-list view. -/
def pyStripL (l : List Char) : List Char :=
  ((l.dropWhile isPySpace).reverse.dropWhile isPySpace).reverse

/-- Python `str.strip()`. -/
def pyStrip (s : String) : String :=
  ⟨pyStripL s.data⟩

/-- Python `str.split(c)` for a single-character separator. -/
def splitOnChar (sep : Char) : List Char → List (List Char)
  | [] => [[]]
  | c :: cs =>
      match splitOnChar sep cs with
      | [] => [[c]]
      | r :: rs => if c = sep then [] :: r :: rs else (c :: r) :: rs

/-- Python `str.split(" | ")`: scan left to right for the three-character
separator, consuming it greedily at its leftmost occurrences. -/
def splitPipeL : List Char → List (List Char)
  | [] => [[]]
  | ' ' :: '|' :: ' ' :: rest => [] :: splitPipeL rest
  | c :: cs =>
      match splitPipeL cs with
      | [] => [[c]]
      | r :: rs => (c :: r) :: rs

/-- Python `" | ".split` applied to a string, producing strings. -/
def splitPipe (s : String) : List String :=
  (splitPipeL s.data).map (fun l => ⟨l⟩)

/-- Python `" | ".join` on the character-list view. -/
def joinPipeL (parts : List (List Char)) : List Char :=
  List.intercalate [' ', '|', ' '] parts

/-- Python `" | ".join(names)`. -/
def joinPipe (names : List String) : String :=
  ⟨joinPipeL (names.map (·.data))⟩

/-- Association-list read: Python `d[k]` / `d.get(k)` on an
insertion-ordered dictionary. -/
def dget {β : Type} (m : List (String × β)) (k : String) : Option β :=
  match m with
  | [] => none
  | (a, b) :: t => if a = k then some b else dget t k

/-- Python `d[k] = v`: update the existing entry in place, else append. -/
def dictSet {β : Type} (m : List (String × β)) (k : String) (v : β) :
    List (String × β) :=
  match m with
  | [] => [(k, v)]
  | (a, b) :: t => if a = k then (k, v) :: t else (a, b) :: dictSet t k v

/-- Python `if k not in d: d[k] = v`. -/
def dictInsertIfAbsent {β : Type} (m : List (String × β)) (k : String) (v : β) :
    List (String × β) :=
  if (dget m k).isSome then m else m ++ [(k, v)]

/-- Python `s.add(x)` on an insertion-ordered set of strings. -/
def setAdd (s : List String) (x : String) : List String :=
  if x ∈ s then s else s ++ [x]

/-- Membership test for a substring, embedding Python `sub in s`. -/
def containsSubL (sub : List Char) : List Char → Bool
  | [] => sub.isPrefixOf []
  | c :: cs => sub.isPrefixOf (c :: cs) || containsSubL sub cs

/-- Python `sub in s` for strings. -/
def containsSub (s sub : String) : Bool :=
  containsSubL sub.data s.data

/-- An XML element: tag, attributes, text content (Python `None` text is
modelled as the empty string, matching every `elem.text or ""` read in the
source), children. -/
inductive Xml where
  | elem (tag : String) (attrs : List (String × String)) (text : String)
      (children : List Xml)

/-- Tag of an element. -/
def Xml.tag : Xml → String
  | .elem t _ _ _ => t

/-- Attribute list of an element. -/
def Xml.attrs : Xml → List (String × String)
  | .elem _ a _ _ => a

/-- Text content of an element. -/
def Xml.text : Xml → String
  | .elem _ _ x _ => x

/-- Children of an element. -/
def Xml.children : Xml → List Xml
  | .elem _ _ _ c => c

mutual

/-- All proper descendants of an element in document (pre-)order: the
node set traversed by `ElementTree.findall(".//…")`. -/
def Xml.descendants : Xml → List Xml
  | .elem _ _ _ cs => descendantsList cs

/-- Descendants-with-self of each element of a list, concatenated in order. -/
def descendantsList : List Xml → List Xml
  | [] => []
  | c :: cs => c :: c.descendants ++ descendantsList cs

end

/-- Embedding of `elem.findall(".//tag")`: every proper descendant with the given tag. -/
def findAllTag (e : Xml) (t : String) : List Xml :=
  e.descendants.filter (fun d => d.tag = t)

/-- Embedding of `elem.find(".//tag")`: the first proper descendant with the given tag. -/
def findFirstTag (e : Xml) (t : String) : Option Xml :=
  e.descendants.find? (fun d => d.tag = t)

/-- Embedding of `elem.get(name, default)`. -/
def attrD (e : Xml) (name default : String) : String :=
  (dget e.attrs name).getD default

/-- Whether the attribute is present (`elem.get(name) is not None`). -/
def attrHas (e : Xml) (name : String) : Bool :=
  (dget e.attrs name).isSome

/-! ## Embedding of `src/src/field_dependencies_extractor.py` -/

/-- One key/display-name pair per column retained by the primary scan of
`FieldDependenciesAnalyzer._extract_field_definitions` (the loop over
`root.findall(".//datasource")`, lines 69-78): skip columns whose `name`
is missing or does not start with `[`; the display name is the caption
when non-empty, else the name with its first and last characters
stripped. -/
def fde_primary_items (root : Xml) : List (String × String) :=
  (findAllTag root "datasource").flatMap fun datasource =>
    (findAllTag datasource "column").filterMap fun column =>
      let field_name := attrD column "name" ""
      if field_name = "" then none
      else if ¬ pyStartsWith field_name "[" then none
      else
        let caption := attrD column "caption" ""
        some (field_name,
          if caption ≠ "" then caption else ⟨pySlice1m1 field_name.data⟩)

/-- One key/display-name pair per column retained by the supplementary scan
of the same function (the loop over `root.findall(".//datasource-dependencies")`,
lines 81-90). -/
def fde_supp_items (root : Xml) : List (String × String) :=
  (findAllTag root "datasource-dependencies").flatMap fun deps =>
    (findAllTag deps "column").filterMap fun column =>
      let field_name := attrD column "name" ""
      if field_name = "" then none
      else if ¬ pyStartsWith field_name "[" then none
      else
        let caption := attrD column "caption" ""
        some (field_name,
          if caption ≠ "" then caption else ⟨pySlice1m1 field_name.data⟩)

/-- Embedding of `FieldDependenciesAnalyzer._extract_field_definitions`: the primary scan
assigns unconditionally (`field_definitions[field_name] = display_name`),
the supplementary scan inserts only when the key is absent. -/
def fde_extract_field_definitions (root : Xml) : List (String × String) :=
  (fde_supp_items root).foldl
    (fun m p => dictInsertIfAbsent m p.1 p.2)
    ((fde_primary_items root).foldl (fun m p => dictSet m p.1 p.2) [])

/-- State machine embedding `re.findall(r"\[([^\]]+)\]", formula)`: outside
a bracket, a `[` opens a candidate token; inside, characters other than `]`
accumulate; a `]` closes the token, which is emitted when non-empty.  The
accumulator holds the pending token reversed. -/
def bracketTokensAux (state : Option (List Char)) : List Char → List (List Char)
  | [] => []
  | c :: rest =>
      match state with
      | none =>
          if c = '[' then bracketTokensAux (some []) rest
          else bracketTokensAux none rest
      | some acc =>
          if c = ']' then
            if acc = [] then bracketTokensAux none rest
            else acc.reverse :: bracketTokensAux none rest
          else bracketTokensAux (some (c :: acc)) rest

/-- All matches of the bracketed-token pattern `\[([^\]]+)\]` in a formula,
leftmost and non-overlapping, as produced by `re.findall`. -/
def bracketTokens (l : List Char) : List (List Char) :=
  bracketTokensAux none l

/-- The fixed keyword exclusion list of
`_extract_field_references_from_formula` (lines 180-190). -/
def formulaKeywords : List String :=
  ["SUM", "AVG", "COUNT", "MIN", "MAX", "IF", "THEN", "ELSE", "END"]

/-- Embedding of `FieldDependenciesAnalyzer._extract_field_references_from_formula`
(lines 160-205): scan the bracketed tokens of the formula, discard
keywords (compared upper-cased), tokens containing a parenthesis, and
tokens starting with `Parameters`; resolve the re-bracketed survivor
through the field-definition index, falling back to the raw token; collect
into a set. -/
def extract_field_references_from_formula (formula : String)
    (field_definitions : List (String × String)) : List String :=
  (bracketTokens formula.data).foldl
    (fun referenced_fields tok =>
      if formulaKeywords.contains (pyUpper ⟨tok⟩) then referenced_fields
      else if tok.contains '(' || tok.contains ')' then referenced_fields
      else if pyStartsWith ⟨tok⟩ "Parameters" then referenced_fields
      else
        let field_key : String := ⟨'[' :: (tok ++ [']'])⟩
        match dget field_definitions field_key with
        | some display => setAdd referenced_fields display
        | none => setAdd referenced_fields ⟨tok⟩)
    []

/-- The literal prefix of the parameter-reference pattern
`\[Parameters\]\.\[([^\]]+)\]`. -/
def paramPat : List Char := "[Parameters].[".data

/-- All matches of `re.findall(r"\[Parameters\]\.\[([^\]]+)\]", formula)`:
at each position, if the literal prefix matches and is followed by a
non-empty run of non-`]` characters and a closing `]`, capture the run and
continue after the whole match; otherwise advance one character. -/
def paramRefs : List Char → List (List Char)
  | [] => []
  | c :: cs =>
      if paramPat.isPrefixOf (c :: cs) then
        let rest := (c :: cs).drop paramPat.length
        let name := rest.takeWhile (fun x => x ≠ ']')
        if name ≠ [] ∧ rest.drop name.length ≠ [] then
          name :: paramRefs (rest.drop (name.length + 1))
        else paramRefs cs
      else paramRefs cs
termination_by l => l.length
decreasing_by
  · simp only [List.length_drop, List.length_cons]
    omega
  · simp
  · simp

/-- Add a consumer to a source's set:
`if ref not in dependencies: dependencies[ref] = set()` followed by
`dependencies[ref].add(name)`. -/
def depAdd (m : List (String × List String)) (k v : String) :
    List (String × List String) :=
  match dget m k with
  | none => m ++ [(k, setAdd [] v)]
  | some s => dictSet m k (setAdd s v)

/-- Embedding of `FieldDependenciesAnalyzer._extract_field_dependencies` (lines 94-158):
first pass over every column owning a calculation records the calculated
field's display name as a consumer of each formula reference; second pass
records it as a consumer of each `[Parameters].[name]` reference when the
formula mentions `[Parameters].`. -/
def extract_field_dependencies (root : Xml)
    (field_definitions : List (String × String)) :
    List (String × List String) :=
  let step1 := (findAllTag root "column").foldl
    (fun dependencies column =>
      match findFirstTag column "calculation" with
      | none => dependencies
      | some calculation =>
          let field_name := attrD column "name" ""
          let caption := attrD column "caption" ""
          if field_name ≠ "" ∧ pyStartsWith field_name "[" then
            let calc_display_name :=
              if caption ≠ "" then caption else ⟨pySlice1m1 field_name.data⟩
            let formula := attrD calculation "formula" ""
            if formula ≠ "" then
              (extract_field_references_from_formula formula
                  field_definitions).foldl
                (fun d ref => depAdd d ref calc_display_name) dependencies
            else dependencies
          else dependencies)
    []
  (findAllTag root "column").foldl
    (fun dependencies column =>
      match findFirstTag column "calculation" with
      | none => dependencies
      | some calculation =>
          let formula := attrD calculation "formula" ""
          if formula ≠ "" ∧ containsSub formula "[Parameters]." then
            let calc_field_name := attrD column "name" ""
            let calc_caption := attrD column "caption" ""
            let calc_display_name :=
              if calc_caption ≠ "" then calc_caption
              else if pyStartsWith calc_field_name "[" then
                ⟨pySlice1m1 calc_field_name.data⟩
              else calc_field_name
            (paramRefs formula.data).foldl
              (fun d p => depAdd d ⟨p⟩ calc_display_name) dependencies
          else dependencies)
    step1

/-- A published dependency record
`{field_name, where_used, used_times}`. -/
structure DepRecord where
  field_name : String
  where_used : String
  used_times : Nat
deriving DecidableEq

/-- Python `sorted` on a list of strings (code-point order). -/
def sortStrings (l : List String) : List String :=
  sortLe strLeB l

/-- The comparator of `results.sort(key=lambda x: (-x["used_times"],
x["field_name"]))`: descending count, ties by ascending name. -/
def depRecLe (a b : DepRecord) : Bool :=
  if a.used_times = b.used_times then strLeB a.field_name b.field_name
  else decide (b.used_times < a.used_times)

/-- Embedding of `FieldDependenciesAnalyzer._create_dependency_results` (lines 207-236):
emit one record per source with a non-empty consumer set (`where_used` the
sorted consumers joined by `" | "`, `used_times` the set's cardinality),
then sort by descending count and ascending name. -/
def create_dependency_results (dependencies : List (String × List String)) :
    List DepRecord :=
  sortLe depRecLe (dependencies.filterMap fun p =>
    if p.2 = [] then none
    else some { field_name := p.1,
                where_used := joinPipe (sortStrings p.2),
                used_times := p.2.length })

/-- State of a path in the modelled file system: absent, present but not
well-formed XML (with the parser's diagnostic), or parsed. -/
inductive FileState where
  | missing
  | unparseable (msg : String)
  | parsed (root : Xml)

/-- The two fatal error kinds surfaced by the analyzers:
`FileNotFoundError` and a propagated `ET.ParseError`. -/
inductive AnalysisError where
  | notFound (path : String)
  | parseError (msg : String)
deriving DecidableEq

/-- Embedding of `FieldDependenciesAnalyzer.analyze_field_dependencies` (lines 25-56):
raise `FileNotFoundError` when the path does not exist, re-raise the parse
error when parsing fails, otherwise run the pure pipeline on the parsed
tree. -/
def analyze_field_dependencies (fs : String → FileState) (file_path : String) :
    Except AnalysisError (List DepRecord) :=
  match fs file_path with
  | .missing => .error (.notFound file_path)
  | .unparseable msg => .error (.parseError msg)
  | .parsed root =>
      .ok (create_dependency_results
        (extract_field_dependencies root (fde_extract_field_definitions root)))

/-! ## Embedding of `src/src/tableau_fields_analyzer.py` -/

/-- Embedding of `TableauFieldsAnalyzer._clean_field_name` on the character-list view
(lines 235-257): strings not starting with `[` (including the empty
string) pass through; otherwise the first and last characters are
stripped, and when the remainder contains a `:` and splits into at least
two parts, the second part is re-bracketed; else the original string is
returned. -/
def cleanFieldNameL (l : List Char) : List Char :=
  if l = [] then l
  else if ¬ ['['].isPrefixOf l then l
  else
    let inner := pySlice1m1 l
    if ':' ∈ inner then
      match splitOnChar ':' inner with
      | _ :: second :: _ => '[' :: (second ++ [']'])
      | _ => l
    else l

/-- Embedding of `TableauFieldsAnalyzer._clean_field_name` on strings. -/
def clean_field_name (field_name : String) : String :=
  ⟨cleanFieldNameL field_name.data⟩

/-- Embedding of `TableauFieldsAnalyzer._determine_field_type` (lines 110-128):
`Parameter` when a `param-domain-type` attribute is present, else
`Calculated Field` when a `calculation` descendant exists, else
`Raw Variable`. -/
def determine_field_type (column : Xml) : String :=
  if attrHas column "param-domain-type" then "Parameter"
  else if (findFirstTag column "calculation").isSome then "Calculated Field"
  else "Raw Variable"

/-- A field definition of the fields-usage analyzer: display name and
resolved type. -/
structure FieldInfo where
  display_name : String
  field_type : String
deriving DecidableEq

/-- One key/definition pair per column retained by the primary scan of
`TableauFieldsAnalyzer._extract_field_definitions` (lines 68-89): the
whole datasource is skipped when its `name` attribute is `Parameters`. -/
def tfa_primary_items (root : Xml) : List (String × FieldInfo) :=
  (findAllTag root "datasource").flatMap fun datasource =>
    if attrD datasource "name" "" = "Parameters" then []
    else
      (findAllTag datasource "column").filterMap fun column =>
        let field_name := attrD column "name" ""
        if field_name = "" then none
        else if ¬ pyStartsWith field_name "[" then none
        else
          let caption := attrD column "caption" ""
          some (field_name,
            { display_name :=
                if caption ≠ "" then caption else ⟨pySlice1m1 field_name.data⟩,
              field_type := determine_field_type column })

/-- One key/definition pair per column retained by the supplementary scan
of the same function (lines 91-106). -/
def tfa_supp_items (root : Xml) : List (String × FieldInfo) :=
  (findAllTag root "datasource-dependencies").flatMap fun deps =>
    (findAllTag deps "column").filterMap fun column =>
      let field_name := attrD column "name" ""
      if field_name = "" then none
      else if ¬ pyStartsWith field_name "[" then none
      else
        let caption := attrD column "caption" ""
        some (field_name,
          { display_name :=
              if caption ≠ "" then caption else ⟨pySlice1m1 field_name.data⟩,
            field_type := determine_field_type column })

/-- The index after the primary scan of
`TableauFieldsAnalyzer._extract_field_definitions`: unconditional
dictionary assignment per retained column. -/
def tfa_primary_index (root : Xml) : List (String × FieldInfo) :=
  (tfa_primary_items root).foldl (fun m p => dictSet m p.1 p.2) []

/-- Embedding of `TableauFieldsAnalyzer._extract_field_definitions` (lines 57-108):
primary scan (unconditional assignment), then supplementary scan
(insertion only when the key is absent). -/
def tfa_extract_field_definitions (root : Xml) : List (String × FieldInfo) :=
  (tfa_supp_items root).foldl
    (fun m p => dictInsertIfAbsent m p.1 p.2) (tfa_primary_index root)

/-- The cleaned column-instance references of one worksheet's
dependency listings (source (a) of `_get_worksheet_fields`, lines
174-186): listings whose `datasource` attribute is `Parameters` are
skipped; a reference is retained when it starts with `[` and its cleaned
form is non-empty. -/
def ws_column_instance_fields (worksheet : Xml) : List String :=
  (findAllTag worksheet "datasource-dependencies").flatMap fun deps =>
    if attrD deps "datasource" "" = "Parameters" then []
    else
      (findAllTag deps "column-instance").filterMap fun ci =>
        let field_name := attrD ci "column" ""
        if field_name ≠ "" ∧ pyStartsWith field_name "[" then
          let clean_name := clean_field_name field_name
          if clean_name ≠ "" then some clean_name else none
        else none

/-- The cleaned `field` attributes of the visual-encoding elements (with an
`attr` attribute) of an element (source (b) of `_get_worksheet_fields`,
lines 189-194, and the only source of `_get_dashboard_fields`, lines
226-231). -/
def encoding_fields (e : Xml) : List String :=
  ((findAllTag e "encoding").filter (fun enc => attrHas enc "attr")).filterMap
    fun enc =>
      let field_name := attrD enc "field" ""
      if field_name ≠ "" ∧ pyStartsWith field_name "[" then
        let clean_name := clean_field_name field_name
        if clean_name ≠ "" then some clean_name else none
      else none

/-- The cleaned text references of the row/column shelves of a worksheet
(source (c) of `_get_worksheet_fields`, lines 197-210): for each `pane`
child of each `panes` descendant, the text of the `column` children of the
`cols` children of `view` descendants, then likewise for `rows`. -/
def ws_shelf_fields (worksheet : Xml) : List String :=
  ((findAllTag worksheet "panes").flatMap fun panes =>
    panes.children.filter (fun p => p.tag = "pane")).flatMap fun pane =>
      let views := findAllTag pane "view"
      let colTexts := (views.flatMap fun v =>
        (v.children.filter (fun c => c.tag = "cols")).flatMap fun cols =>
          cols.children.filter (fun c => c.tag = "column")).filterMap
        fun viewCol =>
          let field_name := viewCol.text
          if field_name ≠ "" ∧ pyStartsWith field_name "[" then
            let clean_name := clean_field_name field_name
            if clean_name ≠ "" then some clean_name else none
          else none
      let rowTexts := (views.flatMap fun v =>
        (v.children.filter (fun c => c.tag = "rows")).flatMap fun rows =>
          rows.children.filter (fun c => c.tag = "column")).filterMap
        fun viewRow =>
          let field_name := viewRow.text
          if field_name ≠ "" ∧ pyStartsWith field_name "[" then
            let clean_name := clean_field_name field_name
            if clean_name ≠ "" then some clean_name else none
          else none
      colTexts ++ rowTexts

/-- Embedding of `TableauFieldsAnalyzer._get_worksheet_fields` (lines 161-212): the set
of cleaned references drawn from the three sources, accumulated in
traversal order. -/
def get_worksheet_fields (worksheet : Xml) : List String :=
  ((ws_column_instance_fields worksheet ++ encoding_fields worksheet)
      ++ ws_shelf_fields worksheet).foldl setAdd []

/-- Embedding of `TableauFieldsAnalyzer._get_dashboard_fields` (lines 214-233). -/
def get_dashboard_fields (dashboard : Xml) : List String :=
  (encoding_fields dashboard).foldl setAdd []

/-- One pointwise increment of a usage-count table:
`usage_counts[f] = usage_counts.get(f, 0) + 1`. -/
def bumpCount (counts : String → Nat) (f : String) : String → Nat :=
  fun x => if x = f then counts f + 1 else counts x

/-- Embedding of `TableauFieldsAnalyzer._count_worksheet_field_usage` (lines 130-159):
each worksheet increments the count of every member of its field set by
one, then each dashboard does likewise; the table is read only through
`get(field, 0)`, modelled as a total function defaulting to zero. -/
def count_worksheet_field_usage (root : Xml) : String → Nat :=
  let afterWorksheets := (findAllTag root "worksheet").foldl
    (fun counts worksheet => (get_worksheet_fields worksheet).foldl bumpCount counts)
    (fun _ => 0)
  (findAllTag root "dashboard").foldl
    (fun counts dashboard => (get_dashboard_fields dashboard).foldl bumpCount counts)
    afterWorksheets

/-- A published field-usage record `{field_name, field_type, used_times}`. -/
structure UsageRecord where
  field_name : String
  field_type : String
  used_times : Nat
deriving DecidableEq

/-- The comparator of the usage-result sort (descending count, ties by
ascending name). -/
def usageRecLe (a b : UsageRecord) : Bool :=
  if a.used_times = b.used_times then strLeB a.field_name b.field_name
  else decide (b.used_times < a.used_times)

/-- Embedding of `TableauFieldsAnalyzer._create_usage_results` (lines 278-307): one
record per defined field with a positive count, sorted by descending count
and ascending name. -/
def create_usage_results (field_definitions : List (String × FieldInfo))
    (usage_counts : String → Nat) : List UsageRecord :=
  sortLe usageRecLe (field_definitions.filterMap fun p =>
    let usage_count := usage_counts p.1
    if usage_count > 0 then
      some { field_name := p.2.display_name,
             field_type := p.2.field_type,
             used_times := usage_count }
    else none)

/-- Embedding of `TableauFieldsAnalyzer.analyze_fields_usage` (lines 24-55): missing
file, parse failure, or the pure pipeline on the parsed tree. -/
def analyze_fields_usage (fs : String → FileState) (file_path : String) :
    Except AnalysisError (List UsageRecord) :=
  match fs file_path with
  | .missing => .error (.notFound file_path)
  | .unparseable msg => .error (.parseError msg)
  | .parsed root =>
      .ok (create_usage_results (tfa_extract_field_definitions root)
        (count_worksheet_field_usage root))

/-! ## Embedding of `src/src/field_dependencies_network.py` -/

/-- The node attributes set by `create_dependencies_network`:
`field_type`, `used_times`, `node_type`. -/
structure NodeData where
  field_type : String
  used_times : Nat
  node_type : String
deriving DecidableEq

/-- A NetworkX `DiGraph` as used by the visualizer: insertion-ordered
nodes with attribute records, and an insertion-ordered duplicate-free
edge list. -/
structure NxDiGraph where
  nodes : List (String × NodeData)
  edges : List (String × String)
deriving DecidableEq

/-- The empty directed graph (`nx.DiGraph()`). -/
def NxDiGraph.empty : NxDiGraph := { nodes := [], edges := [] }

/-- Embedding of `graph.add_node(n, **attrs)`: NetworkX updates the attribute record of
an existing node in place (keeping its position) and appends a new node
otherwise. -/
def NxDiGraph.add_node (g : NxDiGraph) (n : String) (d : NodeData) : NxDiGraph :=
  { g with nodes := dictSet g.nodes n d }

/-- Embedding of `graph.add_edge(a, b)`: the edge set of a `DiGraph` has no parallel
edges, so a present edge is left alone.  (NetworkX would also create
missing endpoint nodes; in `create_dependencies_network` both endpoints
are always added by `add_node` immediately before every `add_edge`, so
that branch is never taken and is not modelled.) -/
def NxDiGraph.add_edge (g : NxDiGraph) (a b : String) : NxDiGraph :=
  if (a, b) ∈ g.edges then g else { g with edges := g.edges ++ [(a, b)] }

/-- The body of `create_dependencies_network`'s inner loop over the
consumers of one record (`field_dependencies_network.py` lines 87-102):
strip the split fragment, skip it when empty, else add/update the
dependent node (type from the map with fallback `"Calculated Field"`,
`used_times = 0`, role `dependent`) and the edge from the source. -/
def processConsumer (field_types : List (String × String))
    (source_field : String) (g : NxDiGraph) (raw : String) : NxDiGraph :=
  let dependent_field := pyStrip raw
  if dependent_field ≠ "" then
    let dependent_type := (dget field_types dependent_field).getD "Calculated Field"
    (g.add_node dependent_field
      { field_type := dependent_type, used_times := 0,
        node_type := "dependent" }).add_edge source_field dependent_field
  else g

/-- The body of `create_dependencies_network`'s outer loop over one
dependency record (lines 73-102): add/update the source node (type from
the map with fallback `"Unknown"`, `used_times` from the record, role
`source`), then process each `" | "`-split fragment of `where_used`. -/
def processRecord (field_types : List (String × String)) (g : NxDiGraph)
    (r : DepRecord) : NxDiGraph :=
  let source_field := r.field_name
  let g₁ := g.add_node source_field
    { field_type := (dget field_types source_field).getD "Unknown",
      used_times := r.used_times, node_type := "source" }
  (splitPipe r.where_used).foldl (processConsumer field_types source_field) g₁

/-- The graph-building loop of
`FieldDependenciesNetworkVisualizer.create_dependencies_network`
(lines 69-104), as a function of the analyzer's dependency results and of
the display-name → type map extracted from the document. -/
def create_dependencies_network (dependencies_results : List DepRecord)
    (field_types : List (String × String)) : NxDiGraph :=
  dependencies_results.foldl (processRecord field_types) NxDiGraph.empty

/-- The consumers actually processed for one dependency record by the
graph-building loop: the `" | "`-split fragments of `where_used`,
stripped, with empty fragments dropped. -/
def recordConsumers (r : DepRecord) : List String :=
  ((splitPipe r.where_used).map pyStrip).filter (fun c => c ≠ "")

/-- The sequence of values assigned to the `used_times` attribute of node
`n` while `create_dependencies_network` processes the records in order:
each record writes its own `used_times` when `n` is its source and `0`
for every occurrence of `n` among its processed consumers. -/
def usedTimesWrites (results : List DepRecord) (n : String) : List Nat :=
  results.flatMap fun r =>
    (if r.field_name = n then [r.used_times] else []) ++
      (recordConsumers r).filterMap (fun c => if c = n then some 0 else none)

/-! ## General lemmas about the embedded container operations -/

theorem dget_dictSet {β : Type} (m : List (String × β)) (k k' : String) (v : β) :
    dget (dictSet m k v) k' = if k' = k then some v else dget m k' := by
  induction m with
  | nil =>
      by_cases h : k' = k <;> simp [dictSet, dget, h, Ne.symm]
  | cons p t ih =>
      obtain ⟨a, b⟩ := p
      by_cases hak : a = k
      · by_cases hk : k' = k <;> simp [dictSet, dget, hak, hk, Ne.symm]
      · by_cases hak' : a = k'
        · subst hak'
          have hk : ¬ (a = k) := hak
          simp [dictSet, dget, hak, hk]
        · simp [dictSet, dget, hak, hak', ih]

theorem dget_append {β : Type} (m m' : List (String × β)) (k : String) :
    dget (m ++ m') k = (dget m k).or (dget m' k) := by
  induction m with
  | nil => simp [dget]
  | cons p t ih =>
      obtain ⟨a, b⟩ := p
      by_cases h : a = k <;> simp [dget, h, ih]

theorem dget_dictInsertIfAbsent {β : Type} (m : List (String × β))
    (k k' : String) (v : β) :
    dget (dictInsertIfAbsent m k v) k'
      = if k' = k then (dget m k).or (some v) else dget m k' := by
  unfold dictInsertIfAbsent
  by_cases hp : (dget m k).isSome
  · obtain ⟨w, hw⟩ := Option.isSome_iff_exists.mp hp
    by_cases hk : k' = k <;> simp [hp, hk, hw]
  · have hnone : dget m k = none := Option.not_isSome_iff_eq_none.mp hp
    by_cases hk : k' = k <;>
      simp [hp, hk, dget_append, hnone, dget, Ne.symm]

theorem dget_foldl_dictSet {β : Type} (items : List (String × β))
    (m0 : List (String × β)) (k : String) :
    dget (items.foldl (fun m p => dictSet m p.1 p.2) m0) k
      = ((items.reverse.find? (fun p => p.1 = k)).map Prod.snd).or (dget m0 k) := by
  induction items using List.reverseRecOn with
  | nil =>
      simp only [List.foldl_nil, List.reverse_nil, List.find?_nil,
        Option.map_none']
      cases dget m0 k <;> rfl
  | append_singleton rest p ih =>
      simp only [List.foldl_append, List.foldl_cons, List.foldl_nil,
        List.reverse_append, List.reverse_singleton, List.singleton_append,
        List.find?_cons]
      by_cases h : p.1 = k
      · cases hfr : (rest.reverse.find? (fun q => q.1 = k)) <;>
          simp [dget_dictSet, h, Option.or]
      · simp [dget_dictSet, h, ih, Ne.symm h]

theorem dget_foldl_dictInsertIfAbsent {β : Type} (items : List (String × β))
    (m0 : List (String × β)) (k : String) :
    dget (items.foldl (fun m p => dictInsertIfAbsent m p.1 p.2) m0) k
      = (dget m0 k).or ((items.find? (fun p => p.1 = k)).map Prod.snd) := by
  induction items generalizing m0 with
  | nil =>
      simp only [List.foldl_nil, List.find?_nil, Option.map_none']
      cases dget m0 k <;> rfl
  | cons p rest ih =>
      simp only [List.foldl_cons, ih, dget_dictInsertIfAbsent, List.find?_cons]
      by_cases h : p.1 = k
      · subst h
        cases dget m0 p.1 <;> simp [Option.or]
      · have h' : ¬ (k = p.1) := fun hh => h hh.symm
        cases dget m0 k <;> simp [Option.or, h, h']

theorem mem_setAdd (s : List String) (x y : String) :
    y ∈ setAdd s x ↔ y ∈ s ∨ y = x := by
  unfold setAdd
  by_cases h : x ∈ s
  · constructor
    · intro hy
      simp only [if_pos h] at hy
      exact Or.inl hy
    · intro hy
      rcases hy with hy | hy
      · simp [h, hy]
      · simp [h, hy]
  · simp [h, or_comm]

theorem nodup_setAdd (s : List String) (x : String) (hs : s.Nodup) :
    (setAdd s x).Nodup := by
  unfold setAdd
  by_cases h : x ∈ s
  · simp [h, hs]
  · simp [h, List.nodup_append, hs]

theorem mem_foldl_setAdd (l : List String) (s : List String) (y : String) :
    y ∈ l.foldl setAdd s ↔ y ∈ s ∨ y ∈ l := by
  induction l generalizing s with
  | nil => simp
  | cons a t ih =>
      simp only [List.foldl_cons, ih, mem_setAdd, List.mem_cons]
      tauto

theorem nodup_foldl_setAdd (l : List String) (s : List String) (hs : s.Nodup) :
    (l.foldl setAdd s).Nodup := by
  induction l generalizing s with
  | nil => exact hs
  | cons a t ih => exact ih _ (nodup_setAdd _ _ hs)

theorem perm_insertLe {α : Type} (le : α → α → Bool) (a : α) (l : List α) :
    List.Perm (insertLe le a l) (a :: l) := by
  induction l with
  | nil => exact List.Perm.refl _
  | cons b t ih =>
      unfold insertLe
      cases hleb : le a b
      · simp only [Bool.false_eq_true, if_neg, not_false_eq_true]
        exact (ih.cons b).trans (List.Perm.swap a b t)
      · simp only [if_pos]
        exact List.Perm.refl _

theorem perm_sortLe {α : Type} (le : α → α → Bool) (l : List α) :
    List.Perm (sortLe le l) l := by
  induction l with
  | nil => exact List.Perm.refl _
  | cons a t ih => exact (perm_insertLe le a (sortLe le t)).trans (ih.cons a)

theorem mem_sortLe {α : Type} (le : α → α → Bool) (l : List α) (x : α) :
    x ∈ sortLe le l ↔ x ∈ l :=
  (perm_sortLe le l).mem_iff

theorem nodup_sortLe {α : Type} (le : α → α → Bool) (l : List α)
    (h : l.Nodup) : (sortLe le l).Nodup :=
  (perm_sortLe le l).nodup_iff.mpr h

theorem length_sortLe {α : Type} (le : α → α → Bool) (l : List α) :
    (sortLe le l).length = l.length :=
  (perm_sortLe le l).length_eq

theorem pairwise_insertLe {α : Type} (le : α → α → Bool)
    (htrans : ∀ a b c, le a b = true → le b c = true → le a c = true)
    (htotal : ∀ a b, le a b = true ∨ le b a = true)
    (a : α) (l : List α) (hl : l.Pairwise (fun x y => le x y = true)) :
    (insertLe le a l).Pairwise (fun x y => le x y = true) := by
  induction l with
  | nil => simp [insertLe]
  | cons b t ih =>
      unfold insertLe
      rcases List.pairwise_cons.mp hl with ⟨hb, ht⟩
      cases hleb : le a b
      · have hba : le b a = true := by
          rcases htotal a b with h | h
          · rw [h] at hleb; exact absurd hleb (by simp)
          · exact h
        simp only [Bool.false_eq_true, if_neg, not_false_eq_true]
        refine List.pairwise_cons.mpr ⟨?_, ih ht⟩
        intro x hx
        rcases List.mem_cons.mp ((perm_insertLe le a t).mem_iff.mp hx) with hx | hx
        · exact hx ▸ hba
        · exact hb x hx
      · simp only [if_pos]
        refine List.pairwise_cons.mpr ⟨?_, hl⟩
        intro x hx
        rcases List.mem_cons.mp hx with hx | hx
        · exact hx ▸ hleb
        · exact htrans a b x hleb (hb x hx)

theorem pairwise_sortLe {α : Type} (le : α → α → Bool)
    (htrans : ∀ a b c, le a b = true → le b c = true → le a c = true)
    (htotal : ∀ a b, le a b = true ∨ le b a = true)
    (l : List α) : (sortLe le l).Pairwise (fun x y => le x y = true) := by
  induction l with
  | nil => simp [sortLe]
  | cons a t ih => exact pairwise_insertLe le htrans htotal a (sortLe le t) ih

theorem lexLe_total : ∀ a b : List Char, lexLe a b = true ∨ lexLe b a = true
  | [], _ => Or.inl rfl
  | _ :: _, [] => Or.inr rfl
  | a :: as, b :: bs => by
      rcases lt_trichotomy a b with h | h | h
      · exact Or.inl (by simp [lexLe, h])
      · subst h
        rcases lexLe_total as bs with ih | ih
        · exact Or.inl (by simp [lexLe, lt_irrefl, ih])
        · exact Or.inr (by simp [lexLe, lt_irrefl, ih])
      · exact Or.inr (by simp [lexLe, h])

theorem lexLe_trans :
    ∀ a b c : List Char, lexLe a b = true → lexLe b c = true → lexLe a c = true
  | [], _, _ => by intro h1 h2; rfl
  | _ :: _, [], _ => by intro h1 h2; simp [lexLe] at h1
  | _ :: _, _ :: _, [] => by intro h1 h2; simp [lexLe] at h2
  | a :: as, b :: bs, c :: cs => by
      intro h1 h2
      rcases lt_trichotomy a b with hab | hab | hab
      · rcases lt_trichotomy b c with hbc | hbc | hbc
        · simp [lexLe, lt_trans hab hbc]
        · subst hbc; simp [lexLe, hab]
        · simp [lexLe, lt_asymm hbc, hbc] at h2
      · subst hab
        simp only [lexLe, lt_irrefl, if_neg, if_false] at h1
        rcases lt_trichotomy a c with hac | hac | hac
        · simp [lexLe, hac]
        · subst hac
          simp only [lexLe, lt_irrefl, if_neg, if_false] at h2 ⊢
          exact lexLe_trans as bs cs h1 h2
        · simp [lexLe, lt_asymm hac, hac] at h2
      · simp [lexLe, lt_asymm hab, hab] at h1

theorem strLeB_total (a b : String) : strLeB a b = true ∨ strLeB b a = true :=
  lexLe_total a.data b.data

theorem strLeB_trans (a b c : String) (h1 : strLeB a b = true)
    (h2 : strLeB b c = true) : strLeB a c = true :=
  lexLe_trans a.data b.data c.data h1 h2

theorem depRecLe_total (a b : DepRecord) :
    depRecLe a b = true ∨ depRecLe b a = true := by
  unfold depRecLe
  by_cases h : a.used_times = b.used_times
  · simp only [h, if_pos rfl]
    exact strLeB_total a.field_name b.field_name
  · have h' : ¬ b.used_times = a.used_times := fun hh => h hh.symm
    simp only [h, h', if_neg, not_false_eq_true, decide_eq_true_eq]
    omega

theorem depRecLe_trans (a b c : DepRecord) (h1 : depRecLe a b = true)
    (h2 : depRecLe b c = true) : depRecLe a c = true := by
  unfold depRecLe at h1 h2 ⊢
  by_cases hab : a.used_times = b.used_times <;>
    by_cases hbc : b.used_times = c.used_times
  · simp only [hab, if_pos rfl] at h1
    simp only [hbc, if_pos rfl] at h2
    simp only [hab, hbc, if_pos rfl]
    exact strLeB_trans _ _ _ h1 h2
  · simp only [hbc, if_neg, not_false_eq_true, decide_eq_true_eq] at h2
    have hac : ¬ a.used_times = c.used_times := by omega
    simp only [hac, if_neg, not_false_eq_true, decide_eq_true_eq]
    omega
  · simp only [hab, if_neg, not_false_eq_true, decide_eq_true_eq] at h1
    have hac : ¬ a.used_times = c.used_times := by omega
    simp only [hac, if_neg, not_false_eq_true, decide_eq_true_eq]
    omega
  · simp only [hab, if_neg, not_false_eq_true, decide_eq_true_eq] at h1
    simp only [hbc, if_neg, not_false_eq_true, decide_eq_true_eq] at h2
    have hac : ¬ a.used_times = c.used_times := by omega
    simp only [hac, if_neg, not_false_eq_true, decide_eq_true_eq]
    omega

theorem splitPipeL_no_pipe (l : List Char) (h : '|' ∉ l) : splitPipeL l = [l] := by
  induction l with
  | nil => rfl
  | cons c cs ih =>
      have hcs : '|' ∉ cs := fun hm => h (List.mem_cons_of_mem _ hm)
      rw [splitPipeL.eq_def]
      split
      · rename_i heq
        simp at heq
      · rename_i rest heq
        exfalso
        apply h
        rw [heq]
        simp
      · rename_i c' cs' heq hne
        injection hne with h1 h2
        subst h1
        subst h2
        rw [ih hcs]

theorem splitPipeL_append (n t : List Char) (h : '|' ∉ n) :
    splitPipeL (n ++ ' ' :: '|' :: ' ' :: t) = n :: splitPipeL t := by
  induction n with
  | nil => rfl
  | cons c n' ih =>
      have hn' : '|' ∉ n' := fun hm => h (List.mem_cons_of_mem _ hm)
      rw [List.cons_append, splitPipeL.eq_def]
      split
      · rename_i heq
        simp at heq
      · rename_i rest heq
        exfalso
        injection heq with h1 h2
        cases n' with
        | nil =>
            rw [List.nil_append] at h2
            injection h2 with h3 h4
            exact absurd h3 (by decide)
        | cons x n'' =>
            rw [List.cons_append] at h2
            injection h2 with h3 h4
            apply h
            rw [h3]
            simp
      · rename_i c' cs' heq hne
        injection hne with h1 h2
        subst h1
        subst h2
        rw [ih hn']

theorem splitPipeL_joinPipeL :
    ∀ parts : List (List Char), parts ≠ [] → (∀ p ∈ parts, '|' ∉ p) →
      splitPipeL (joinPipeL parts) = parts
  | [], h, _ => absurd rfl h
  | [p], _, hp => by
      have h1 : joinPipeL [p] = p := by
        simp [joinPipeL, List.intercalate]
      rw [h1]
      exact splitPipeL_no_pipe p (hp p (by simp))
  | p :: q :: rest, _, hp => by
      have h1 : joinPipeL (p :: q :: rest)
          = p ++ ' ' :: '|' :: ' ' :: joinPipeL (q :: rest) := by
        simp [joinPipeL, List.intercalate, List.intersperse]
      rw [h1, splitPipeL_append _ _ (hp p (by simp))]
      rw [splitPipeL_joinPipeL (q :: rest) (by simp)
        (fun x hx => hp x (List.mem_cons_of_mem _ hx))]

theorem splitOnChar_ne_nil (sep : Char) (l : List Char) :
    splitOnChar sep l ≠ [] := by
  cases l with
  | nil => simp [splitOnChar]
  | cons c cs =>
      rw [splitOnChar.eq_def]
      dsimp only
      cases h : splitOnChar sep cs with
      | nil => simp
      | cons r rs => by_cases hc : c = sep <;> simp [hc]

theorem not_mem_splitOnChar (sep : Char) (l : List Char) :
    ∀ part ∈ splitOnChar sep l, sep ∉ part := by
  induction l with
  | nil =>
      intro part hp
      simp [splitOnChar] at hp
      simp [hp]
  | cons c cs ih =>
      intro part hp
      rw [splitOnChar.eq_def] at hp
      dsimp only at hp
      cases h : splitOnChar sep cs with
      | nil => exact absurd h (splitOnChar_ne_nil sep cs)
      | cons r rs =>
          rw [h] at hp
          by_cases hc : c = sep
          · simp only [hc, if_pos rfl] at hp
            rcases List.mem_cons.mp hp with hp | hp
            · simp [hp]
            · exact ih part (h ▸ hp)
          · simp only [hc, if_neg, not_false_eq_true] at hp
            rcases List.mem_cons.mp hp with hp | hp
            · subst hp
              intro hmem
              rcases List.mem_cons.mp hmem with hm | hm
              · exact hc hm.symm
              · exact ih r (h ▸ List.mem_cons_self r rs) hm
            · exact ih part (h ▸ List.mem_cons_of_mem r hp)

theorem splitOnChar_sep_append (sep : Char) (pre tail : List Char)
    (h : sep ∉ pre) :
    splitOnChar sep (pre ++ sep :: tail) = pre :: splitOnChar sep tail := by
  induction pre with
  | nil =>
      rw [List.nil_append, splitOnChar.eq_def]
      dsimp only
      cases ht : splitOnChar sep tail with
      | nil => exact absurd ht (splitOnChar_ne_nil sep tail)
      | cons r rs => simp [ht]
  | cons c pre' ih =>
      have hpre' : sep ∉ pre' := fun hm => h (List.mem_cons_of_mem _ hm)
      have hc : ¬ (c = sep) := fun hcc => h (hcc ▸ List.mem_cons_self c pre')
      rw [List.cons_append, splitOnChar.eq_def]
      dsimp only
      rw [ih hpre']
      simp [hc]

theorem splitOnChar_head (sep : Char) (l : List Char) :
    ∃ rs, splitOnChar sep l = l.takeWhile (fun c => ¬ (c = sep)) :: rs := by
  induction l with
  | nil => exact ⟨[], rfl⟩
  | cons c cs ih =>
      obtain ⟨rs, hrs⟩ := ih
      rw [splitOnChar.eq_def]
      dsimp only
      rw [hrs]
      by_cases hc : c = sep
      · refine ⟨List.takeWhile (fun c => decide (¬ (c = sep))) cs :: rs, ?_⟩
        simp [hc, List.takeWhile]
      · refine ⟨rs, ?_⟩
        simp [hc, List.takeWhile]

theorem foldl_bumpCount (fields : List String) (c : String → Nat) (x : String) :
    (fields.foldl bumpCount c) x = c x + fields.count x := by
  induction fields generalizing c with
  | nil => simp
  | cons f t ih =>
      simp only [List.foldl_cons, ih, List.count_cons]
      unfold bumpCount
      by_cases h : x = f
      · subst h
        simp
        omega
      · have hbeq : ¬ (x == f) = true := by simpa using h
        have hfx : ¬ (f = x) := fun hh => h hh.symm
        simp [h, hbeq, hfx]

theorem foldl_contexts_count (ctxs : List Xml) (fields : Xml → List String)
    (hnodup : ∀ w ∈ ctxs, (fields w).Nodup)
    (c0 : String → Nat) (x : String) :
    (ctxs.foldl (fun c w => (fields w).foldl bumpCount c) c0) x
      = c0 x + ctxs.countP (fun w => decide (x ∈ fields w)) := by
  induction ctxs generalizing c0 with
  | nil => simp
  | cons w t ih =>
      simp only [List.foldl_cons, List.countP_cons]
      rw [ih (fun v hv => hnodup v (List.mem_cons_of_mem _ hv))]
      rw [foldl_bumpCount]
      by_cases hm : x ∈ fields w
      · have h1 : (fields w).count x = 1 :=
          List.count_eq_one_of_mem (hnodup w (List.mem_cons_self w t)) hm
        simp [h1, hm]
        omega
      · have h0 : (fields w).count x = 0 := List.count_eq_zero.mpr hm
        simp [h0, hm]

theorem splitOnChar_no_sep (sep : Char) (l : List Char) (h : sep ∉ l) :
    splitOnChar sep l = [l] := by
  induction l with
  | nil => rfl
  | cons c cs ih =>
      have hcs : sep ∉ cs := fun hm => h (List.mem_cons_of_mem _ hm)
      have hc : ¬ (c = sep) := fun hcc => h (hcc ▸ List.mem_cons_self c cs)
      rw [splitOnChar.eq_def]
      dsimp only
      rw [ih hcs]
      simp [hc]

theorem cleanFieldNameL_bracket_nocolon (m : List Char) (h : ':' ∉ m) :
    cleanFieldNameL ('[' :: (m ++ [']'])) = '[' :: (m ++ [']']) := by
  unfold cleanFieldNameL
  have hinner : pySlice1m1 ('[' :: (m ++ [']'])) = m := by
    unfold pySlice1m1
    rw [List.drop_one, List.tail_cons, List.dropLast_concat]
  simp [hinner, h, List.isPrefixOf]

theorem cleanFieldNameL_not_bracket (l : List Char)
    (h : ¬ ['['].isPrefixOf l = true) : cleanFieldNameL l = l := by
  unfold cleanFieldNameL
  by_cases hne : l = [] <;> simp [hne, h]

theorem cleanFieldNameL_nocolon (l : List Char)
    (hc : ':' ∉ pySlice1m1 l) : cleanFieldNameL l = l := by
  unfold cleanFieldNameL
  by_cases hne : l = []
  · simp [hne]
  · by_cases h2 : ['['].isPrefixOf l = true <;> simp [hne, h2, hc]

theorem cleanFieldNameL_second_inner (l pre name rest : List Char)
    (hpref : ['['].isPrefixOf l = true)
    (hinner : pySlice1m1 l = pre ++ (':' :: (name ++ rest)))
    (hpre : ':' ∉ pre) (hname : ':' ∉ name)
    (hrest : rest = [] ∨ ∃ t, rest = ':' :: t) :
    cleanFieldNameL l = '[' :: (name ++ [']']) := by
  have hsplit : splitOnChar ':' (pre ++ ':' :: (name ++ rest))
      = pre :: splitOnChar ':' (name ++ rest) :=
    splitOnChar_sep_append ':' pre (name ++ rest) hpre
  have hsecond : ∃ rs, splitOnChar ':' (name ++ rest) = name :: rs := by
    rcases hrest with hrest | ⟨t, hrest⟩
    · subst hrest
      exact ⟨[], by simpa using splitOnChar_no_sep ':' name hname⟩
    · subst hrest
      exact ⟨splitOnChar ':' t, splitOnChar_sep_append ':' name t hname⟩
  obtain ⟨rs, hrs⟩ := hsecond
  have hne : ¬ (l = []) := by
    intro h
    rw [h] at hpref
    simp [List.isPrefixOf] at hpref
  have hmem : ':' ∈ pySlice1m1 l := by
    rw [hinner]
    simp
  unfold cleanFieldNameL
  simp only [hne, if_neg, not_false_eq_true, hpref, not_true_eq_false,
    if_false, hmem, if_pos, hinner, hsplit, hrs]
  rw [if_pos (show ':' ∈ pre ++ ':' :: (name ++ rest) by simp)]

theorem cleanFieldNameL_cases (l : List Char) :
    cleanFieldNameL l = l ∨
      ∃ m, ':' ∉ m ∧ cleanFieldNameL l = '[' :: (m ++ [']']) := by
  unfold cleanFieldNameL
  by_cases h1 : l = []
  · simp [h1]
  by_cases h2 : ['['].isPrefixOf l
  · by_cases h3 : ':' ∈ pySlice1m1 l
    · cases hsp : splitOnChar ':' (pySlice1m1 l) with
      | nil => exact absurd hsp (splitOnChar_ne_nil ':' _)
      | cons p rest =>
          cases rest with
          | nil => simp [h1, h2, h3, hsp]
          | cons second rest' =>
              right
              refine ⟨second, ?_, by simp [h1, h2, h3, hsp]⟩
              exact not_mem_splitOnChar ':' (pySlice1m1 l) second
                (hsp ▸ List.mem_cons_of_mem p (List.mem_cons_self second rest'))
    · simp [h1, h2, h3]
  · simp [h1, h2]

theorem cleanFieldNameL_idem (l : List Char) :
    cleanFieldNameL (cleanFieldNameL l) = cleanFieldNameL l := by
  rcases cleanFieldNameL_cases l with h | ⟨m, hm, h⟩
  · rw [h]
    exact h
  · rw [h, cleanFieldNameL_bracket_nocolon m hm]

/-- Counterexample to claim C5 as stated: the input `"[a:b"` starts with
`[` but has no closing bracket, so it is not a bracketed reference — the
claim's rule says such a reference is returned unchanged — yet the code
strips the first and last characters unconditionally, obtaining the inner
text `"a:"`, whose second colon-delimited part is empty, and returns
`"[]"`, not `"[a:b"`. -/
theorem C5_counterexample :
    clean_field_name "[a:b" = "[]" ∧ ("[]" : String) ≠ "[a:b" := by
  exact ⟨by decide, by decide⟩

/-- Claim C5 (amended): the canonicalization rule holds for every input
string once "bracketed" is read as the code's check — the string starts
with `[` — and the inner text as the first-and-last-characters-stripped
slice `s[1:-1]`, whether or not the last character is a closing bracket.
First conjunct: a string starting with `[` whose stripped inner text
decomposes as `pre ++ ":" ++ name ++ rest` with `pre` and `name`
colon-free and `rest` empty or starting with another colon (so `name` is
exactly the second colon-delimited part, possibly empty) reduces to the
re-bracketed `[name]`; this covers `"[a:b"`, which becomes `"[]"`.
Second conjunct: a string not starting with `[` is returned unchanged.
Third conjunct: a string whose stripped inner text contains no colon is
returned unchanged.  Together the three conjuncts cover every string. -/
theorem C5_clean_field_name_rule_amended :
    (∀ (s : String) (pre name rest : List Char),
        pyStartsWith s "[" = true →
        pySlice1m1 s.data = pre ++ (':' :: (name ++ rest)) →
        ':' ∉ pre → ':' ∉ name →
        (rest = [] ∨ ∃ t, rest = ':' :: t) →
        clean_field_name s = ⟨'[' :: (name ++ [']'])⟩) ∧
    (∀ s : String, ¬ pyStartsWith s "[" = true → clean_field_name s = s) ∧
    (∀ s : String, ':' ∉ pySlice1m1 s.data → clean_field_name s = s) := by
  refine ⟨?_, ?_, ?_⟩
  · intro s pre name rest hpref hinner hpre hname hrest
    exact congrArg String.mk
      (cleanFieldNameL_second_inner s.data pre name rest hpref hinner
        hpre hname hrest)
  · intro s h
    obtain ⟨d⟩ := s
    exact congrArg String.mk (cleanFieldNameL_not_bracket d h)
  · intro s hc
    obtain ⟨d⟩ := s
    exact congrArg String.mk (cleanFieldNameL_nocolon d hc)

/-- Witness for the amended C5: the first conjunct applied at
`"[mn:Order Date:ok]"` (which canonicalizes to `"[Order Date]"`) and at
the closing-bracket-free `"[a:b"` (which canonicalizes to `"[]"`), the
second at `"Sales"` and the third at `"[Profit]"` (both returned
unchanged). -/
theorem C5_clean_field_name_rule_amended_witness :
    clean_field_name "[mn:Order Date:ok]" = "[Order Date]" ∧
    clean_field_name "[a:b" = "[]" ∧
    clean_field_name "Sales" = "Sales" ∧
    clean_field_name "[Profit]" = "[Profit]" :=
  ⟨C5_clean_field_name_rule_amended.1 "[mn:Order Date:ok]" "mn".data
      "Order Date".data (':' :: "ok".data) (by decide) (by decide)
      (by decide) (by decide) (Or.inr ⟨"ok".data, rfl⟩),
    C5_clean_field_name_rule_amended.1 "[a:b" "a".data [] [] (by decide)
      (by decide) (by decide) (by decide) (Or.inl rfl),
    C5_clean_field_name_rule_amended.2.1 "Sales" (by decide),
    C5_clean_field_name_rule_amended.2.2 "[Profit]" (by decide)⟩

/-- Claim C6: canonicalization is total (defined on every string, enforced
by the type) and idempotent: cleaning twice equals cleaning once, for
every string, including malformed references. -/
theorem C6_clean_field_name_idempotent (r : String) :
    clean_field_name (clean_field_name r) = clean_field_name r :=
  congrArg String.mk (cleanFieldNameL_idem r.data)

/-- Claim C9: for both analyzers, a not-found error is raised exactly when
the input path does not exist in the modelled file system (the existence
check precedes parsing: the outcome on a missing path is fixed before the
file's content is ever consulted); an existing but unparseable file
propagates the parse diagnostic; and a result list is produced only in the
parsed case, so an aborted run returns no partial results. -/
theorem C9_error_handling (fs : String → FileState) (path : String) :
    ((analyze_field_dependencies fs path = .error (.notFound path) ↔
        fs path = .missing) ∧
      (∀ msg, fs path = .unparseable msg →
        analyze_field_dependencies fs path = .error (.parseError msg)) ∧
      (∀ root, fs path = .parsed root →
        analyze_field_dependencies fs path =
          .ok (create_dependency_results (extract_field_dependencies root
            (fde_extract_field_definitions root)))) ∧
      (∀ results, analyze_field_dependencies fs path = .ok results →
        ∃ root, fs path = .parsed root)) ∧
    ((analyze_fields_usage fs path = .error (.notFound path) ↔
        fs path = .missing) ∧
      (∀ msg, fs path = .unparseable msg →
        analyze_fields_usage fs path = .error (.parseError msg)) ∧
      (∀ root, fs path = .parsed root →
        analyze_fields_usage fs path =
          .ok (create_usage_results (tfa_extract_field_definitions root)
            (count_worksheet_field_usage root))) ∧
      (∀ results, analyze_fields_usage fs path = .ok results →
        ∃ root, fs path = .parsed root)) := by
  cases h : fs path <;>
    simp [analyze_field_dependencies, analyze_fields_usage, h]

theorem mem_foldl_skip_setAdd (skip : List Char → Bool)
    (res : List Char → String) :
    ∀ (toks : List (List Char)) (acc : List String) (name : String),
      name ∈ toks.foldl (fun s t => if skip t then s else setAdd s (res t)) acc
        ↔ name ∈ acc ∨ ∃ t, t ∈ toks ∧ skip t = false ∧ res t = name := by
  intro toks
  induction toks with
  | nil => intro acc name; simp
  | cons t ts ih =>
      intro acc name
      simp only [List.foldl_cons]
      cases hs : skip t
      · simp only [Bool.false_eq_true, if_neg, not_false_eq_true]
        rw [ih]
        simp only [mem_setAdd, List.mem_cons]
        constructor
        · rintro (⟨h | h⟩ | ⟨u, hu, hsu, hru⟩)
          · exact Or.inl h
          · exact Or.inr ⟨t, Or.inl rfl, hs, h.symm⟩
          · exact Or.inr ⟨u, Or.inr hu, hsu, hru⟩
        · rintro (h | ⟨u, hu | hu, hsu, hru⟩)
          · exact Or.inl (Or.inl h)
          · exact Or.inl (Or.inr (hu ▸ hru).symm)
          · exact Or.inr ⟨u, hu, hsu, hru⟩
      · simp only [if_pos]
        rw [ih]
        constructor
        · rintro (h | ⟨u, hu, hsu, hru⟩)
          · exact Or.inl h
          · exact Or.inr ⟨u, List.mem_cons_of_mem _ hu, hsu, hru⟩
        · rintro (h | ⟨u, hu, hsu, hru⟩)
          · exact Or.inl h
          · rcases List.mem_cons.mp hu with hu | hu
            · rw [hu] at hsu
              rw [hs] at hsu
              exact absurd hsu (by simp)
            · exact Or.inr ⟨u, hu, hsu, hru⟩

/-- Claim C4: the Formula Reference Extractor returns exactly the set of
resolutions of the surviving bracketed tokens — a name is in the result
iff some bracketed token of the formula is not an excluded keyword
(upper-cased against `SUM, AVG, COUNT, MIN, MAX, IF, THEN, ELSE, END`),
contains no parenthesis character, does not start with `Parameters`, and
resolves (display name through the index for the re-bracketed token,
falling back to the raw token text) to that name; and on
`IF [Sales] > 0 THEN SUM([Sales]) ELSE 0 END` the result is exactly
`Sales`. -/
theorem C4_formula_reference_extraction :
    (∀ (formula : String) (defs : List (String × String)) (name : String),
      name ∈ extract_field_references_from_formula formula defs ↔
        ∃ tok, tok ∈ bracketTokens formula.data ∧
          formulaKeywords.contains (pyUpper ⟨tok⟩) = false ∧
          tok.contains '(' = false ∧ tok.contains ')' = false ∧
          pyStartsWith ⟨tok⟩ "Parameters" = false ∧
          (dget defs ⟨'[' :: (tok ++ [']'])⟩).getD ⟨tok⟩ = name) ∧
    extract_field_references_from_formula
      "IF [Sales] > 0 THEN SUM([Sales]) ELSE 0 END" [] = ["Sales"] := by
  constructor
  · intro formula defs name
    have hfold : extract_field_references_from_formula formula defs
        = (bracketTokens formula.data).foldl
            (fun s t =>
              if (formulaKeywords.contains (pyUpper ⟨t⟩)
                    || (t.contains '(' || t.contains ')')
                    || pyStartsWith ⟨t⟩ "Parameters") then s
              else setAdd s ((dget defs ⟨'[' :: (t ++ [']'])⟩).getD ⟨t⟩)) [] := by
      unfold extract_field_references_from_formula
      apply List.foldl_ext
      intro acc tok hmem
      cases h1 : formulaKeywords.contains (pyUpper ⟨tok⟩) <;>
        cases h2 : (tok.contains '(' || tok.contains ')') <;>
          cases h3 : pyStartsWith ⟨tok⟩ "Parameters" <;>
            cases h4 : dget defs ⟨'[' :: (tok ++ [']'])⟩ <;>
              simp_all
    rw [hfold, mem_foldl_skip_setAdd]
    simp only [List.not_mem_nil, false_or, Bool.or_eq_false_iff]
    constructor
    · rintro ⟨t, ht, ⟨⟨hk, hp1, hp2⟩, hpar⟩, hres⟩
      exact ⟨t, ht, hk, hp1, hp2, hpar, hres⟩
    · rintro ⟨t, ht, hk, hp1, hp2, hpar, hres⟩
      exact ⟨t, ht, ⟨⟨hk, hp1, hp2⟩, hpar⟩, hres⟩
  · rfl

/-- Counterexample to claim C2 as stated: the Field Definition Indexer of
the dependency extractor (`field_dependencies_extractor.py`, one of the
two cited implementations) has no Parameters skip.  In a document whose
only column lives under a datasource named `Parameters` (and which has no
dependency-listing container at all, so only the primary pass can run),
the key still enters the index. -/
theorem C2_counterexample :
    fde_extract_field_definitions
        (Xml.elem "workbook" [] ""
          [Xml.elem "datasource" [("name", "Parameters")] ""
            [Xml.elem "column"
              [("name", "[Parameter 1]"), ("caption", "Growth Rate")] "" []]])
      = [("[Parameter 1]", "Growth Rate")] ∧
    findAllTag
        (Xml.elem "workbook" [] ""
          [Xml.elem "datasource" [("name", "Parameters")] ""
            [Xml.elem "column"
              [("name", "[Parameter 1]"), ("caption", "Growth Rate")] "" []]])
        "datasource-dependencies" = [] :=
  ⟨rfl, rfl⟩

/-- Claim C2 (amended): only the fields-usage analyzer's indexer skips the
parameters-only datasource; for it the claim holds: if every datasource
container having a column with the given key among its descendants is
named `Parameters`, the key does not enter the primary-pass index — for
every input document.  (The dependency extractor's indexer, also cited by
the claim, performs no such skip; see the counterexample.) -/
theorem C2_parameters_skip_amended (root : Xml) (key : String)
    (h : ∀ ds ∈ findAllTag root "datasource",
      (∃ col ∈ findAllTag ds "column", attrD col "name" "" = key) →
        attrD ds "name" "" = "Parameters") :
    dget (tfa_primary_index root) key = none := by
  unfold tfa_primary_index
  rw [dget_foldl_dictSet]
  have hfind : (tfa_primary_items root).reverse.find? (fun p => p.1 = key)
      = none := by
    rw [List.find?_eq_none]
    intro p hp hkey
    rw [List.mem_reverse] at hp
    unfold tfa_primary_items at hp
    rw [List.mem_flatMap] at hp
    obtain ⟨ds, hds, hpds⟩ := hp
    by_cases hname : attrD ds "name" "" = "Parameters"
    · rw [if_pos hname] at hpds
      exact List.not_mem_nil p hpds
    · apply hname
      rw [if_neg hname] at hpds
      rw [List.mem_filterMap] at hpds
      obtain ⟨col, hcol, hfc⟩ := hpds
      apply h ds hds
      refine ⟨col, hcol, ?_⟩
      dsimp only at hfc
      by_cases h1 : attrD col "name" "" = ""
      · rw [if_pos h1] at hfc
        exact absurd hfc (by simp)
      · rw [if_neg h1] at hfc
        by_cases h2 : ¬ pyStartsWith (attrD col "name" "") "[" = true
        · rw [if_pos h2] at hfc
          exact absurd hfc (by simp)
        · rw [if_neg h2] at hfc
          have hpair := Option.some.inj hfc
          have hfst : attrD col "name" "" = p.1 := congrArg Prod.fst hpair
          rw [hfst]
          exact of_decide_eq_true hkey
  rw [hfind]
  rfl

/-- Witness for the amended C2: a document with one `Parameters`
datasource defining `[Parameter 1]` and one ordinary datasource defining
`[Sales]`; the key defined only under `Parameters` is absent from the
analyzer's primary index. -/
theorem C2_parameters_skip_amended_witness :
    dget
      (tfa_primary_index
        (Xml.elem "workbook" [] ""
          [Xml.elem "datasource" [("name", "Parameters")] ""
            [Xml.elem "column"
              [("name", "[Parameter 1]"), ("caption", "Growth Rate")] "" []],
          Xml.elem "datasource" [("name", "federated.0")] ""
            [Xml.elem "column" [("name", "[Sales]")] "" []]]))
      "[Parameter 1]" = none := by
  apply C2_parameters_skip_amended
  intro ds hds hcol
  have hds' : ds = Xml.elem "datasource" [("name", "Parameters")] ""
        [Xml.elem "column"
          [("name", "[Parameter 1]"), ("caption", "Growth Rate")] "" []] ∨
      ds = Xml.elem "datasource" [("name", "federated.0")] ""
        [Xml.elem "column" [("name", "[Sales]")] "" []] := by
    have : findAllTag
        (Xml.elem "workbook" [] ""
          [Xml.elem "datasource" [("name", "Parameters")] ""
            [Xml.elem "column"
              [("name", "[Parameter 1]"), ("caption", "Growth Rate")] "" []],
          Xml.elem "datasource" [("name", "federated.0")] ""
            [Xml.elem "column" [("name", "[Sales]")] "" []]])
        "datasource"
        = [Xml.elem "datasource" [("name", "Parameters")] ""
            [Xml.elem "column"
              [("name", "[Parameter 1]"), ("caption", "Growth Rate")] "" []],
          Xml.elem "datasource" [("name", "federated.0")] ""
            [Xml.elem "column" [("name", "[Sales]")] "" []]] := rfl
    rw [this] at hds
    simpa using hds
  rcases hds' with hds' | hds'
  · subst hds'
    rfl
  · subst hds'
    exfalso
    obtain ⟨col, hcol', hname⟩ := hcol
    have hcol'' : col = Xml.elem "column" [("name", "[Sales]")] "" [] := by
      have : findAllTag
          (Xml.elem "datasource" [("name", "federated.0")] ""
            [Xml.elem "column" [("name", "[Sales]")] "" []]) "column"
          = [Xml.elem "column" [("name", "[Sales]")] "" []] := rfl
      rw [this] at hcol'
      simpa using hcol'
    subst hcol''
    simp [attrD, dget] at hname

/-- Counterexample to claim C3 as stated: a document whose primary scan
meets the same key `[X]` twice, first with caption `A`, then with caption
`B`.  First-seen precedence would keep `A`; both indexers keep `B`,
because the primary pass assigns unconditionally (last-seen wins within
the primary scan). -/
theorem C3_counterexample :
    fde_extract_field_definitions
        (Xml.elem "workbook" [] ""
          [Xml.elem "datasource" [("name", "federated.0")] ""
            [Xml.elem "column" [("name", "[X]"), ("caption", "A")] "" [],
             Xml.elem "column" [("name", "[X]"), ("caption", "B")] "" []]])
      = [("[X]", "B")] ∧
    (tfa_extract_field_definitions
        (Xml.elem "workbook" [] ""
          [Xml.elem "datasource" [("name", "federated.0")] ""
            [Xml.elem "column" [("name", "[X]"), ("caption", "A")] "" [],
             Xml.elem "column" [("name", "[X]"), ("caption", "B")] "" []]])).map
      (fun p => (p.1, p.2.display_name))
      = [("[X]", "B")] :=
  ⟨rfl, rfl⟩

/-- Claim C3 (amended): the definition kept for a key is the one from the
last retained occurrence in the primary per-datasource scan when the key
occurs there (within the primary pass, later occurrences overwrite
earlier ones — not first-seen); otherwise the one from the first retained
occurrence in the supplementary dependency-listing scan (within that pass
first-seen does hold, and the primary pass always beats it); a key absent
from the primary scan but present in the supplementary one is still
indexed.  This characterizes both indexer implementations on every
document. -/
theorem C3_first_seen_amended (root : Xml) (key : String) :
    dget (fde_extract_field_definitions root) key
      = Option.or
          (((fde_primary_items root).reverse.find?
              (fun p => p.1 = key)).map Prod.snd)
          (((fde_supp_items root).find? (fun p => p.1 = key)).map Prod.snd) ∧
    dget (tfa_extract_field_definitions root) key
      = Option.or
          (((tfa_primary_items root).reverse.find?
              (fun p => p.1 = key)).map Prod.snd)
          (((tfa_supp_items root).find? (fun p => p.1 = key)).map Prod.snd) := by
  constructor
  · unfold fde_extract_field_definitions
    rw [dget_foldl_dictInsertIfAbsent, dget_foldl_dictSet]
    cases ((fde_primary_items root).reverse.find? fun p => p.1 = key) <;> rfl
  · unfold tfa_extract_field_definitions tfa_primary_index
    rw [dget_foldl_dictInsertIfAbsent, dget_foldl_dictSet]
    cases ((tfa_primary_items root).reverse.find? fun p => p.1 = key) <;> rfl

/-- Claim C7: the published dependency result list contains exactly one
record per source with a non-empty consumer set (none for empty sets);
each record carries `used_times` equal to the consumer set's cardinality
and `where_used` equal to the consumer names joined in sorted order (the
joined list is a sorted permutation of the consumer set, in code-point
order); and the list is ordered by descending `used_times` with ties
broken by ascending field name.  Holds for every dependencies map (keys
distinct, consumer sets duplicate-free). -/
theorem C7_dependency_result_shape (deps : List (String × List String))
    (hkeys : (deps.map Prod.fst).Nodup) :
    (∀ r, r ∈ create_dependency_results deps ↔
      ∃ p ∈ deps, p.2 ≠ [] ∧
        r = { field_name := p.1,
              where_used := joinPipe (sortStrings p.2),
              used_times := p.2.length }) ∧
    ((create_dependency_results deps).map DepRecord.field_name).Nodup ∧
    (∀ p ∈ deps, List.Perm (sortStrings p.2) p.2 ∧
      (sortStrings p.2).Pairwise (fun a b => strLeB a b = true)) ∧
    (create_dependency_results deps).Pairwise
      (fun a b => b.used_times < a.used_times ∨
        (a.used_times = b.used_times ∧ strLeB a.field_name b.field_name = true)) := by
  refine ⟨?_, ?_, ?_, ?_⟩
  · intro r
    unfold create_dependency_results
    rw [mem_sortLe, List.mem_filterMap]
    constructor
    · rintro ⟨p, hp, hfp⟩
      by_cases hne : p.2 = []
      · rw [if_pos hne] at hfp
        exact absurd hfp (by simp)
      · rw [if_neg hne] at hfp
        exact ⟨p, hp, hne, (Option.some.inj hfp).symm⟩
    · rintro ⟨p, hp, hne, hr⟩
      exact ⟨p, hp, by rw [if_neg hne, hr]⟩
  · unfold create_dependency_results
    rw [((perm_sortLe depRecLe _).map DepRecord.field_name).nodup_iff]
    revert hkeys
    induction deps with
    | nil => simp
    | cons p t ih =>
        intro hkeys
        rw [List.map_cons, List.nodup_cons] at hkeys
        obtain ⟨hnotin, htail⟩ := hkeys
        rw [List.filterMap_cons]
        by_cases hne : p.2 = []
        · rw [if_pos hne]
          exact ih htail
        · rw [if_neg hne, List.map_cons, List.nodup_cons]
          refine ⟨?_, ih htail⟩
          intro hmem
          apply hnotin
          rw [List.mem_map] at hmem
          obtain ⟨r, hr, hrname⟩ := hmem
          rw [List.mem_filterMap] at hr
          obtain ⟨q, hq, hfq⟩ := hr
          by_cases hqe : q.2 = []
          · rw [if_pos hqe] at hfq
            exact absurd hfq (by simp)
          · rw [if_neg hqe] at hfq
            have hqr := Option.some.inj hfq
            have h1 : q.1 = r.field_name := by rw [← hqr]
            rw [List.mem_map]
            exact ⟨q, hq, by rw [h1, hrname]⟩
  · intro p hp
    exact ⟨perm_sortLe strLeB p.2,
      pairwise_sortLe strLeB strLeB_trans strLeB_total p.2⟩
  · have hpw := pairwise_sortLe depRecLe depRecLe_trans depRecLe_total
      (deps.filterMap fun p =>
        if p.2 = [] then none
        else some { field_name := p.1,
                    where_used := joinPipe (sortStrings p.2),
                    used_times := p.2.length })
    unfold create_dependency_results
    refine hpw.imp ?_
    intro a b hab
    unfold depRecLe at hab
    by_cases h : a.used_times = b.used_times
    · rw [if_pos h] at hab
      exact Or.inr ⟨h, hab⟩
    · rw [if_neg h] at hab
      exact Or.inl (of_decide_eq_true hab)

/-- Witness for C7: on the concrete dependencies map
`Z ↦ set(B, C), A ↦ set(Z)` the theorem yields the record
`(Z, "B | C", 2)` as a member of the published results. -/
theorem C7_dependency_result_shape_witness :
    (⟨"Z", "B | C", 2⟩ : DepRecord) ∈
      create_dependency_results [("Z", ["B", "C"]), ("A", ["Z"])] := by
  have h := (C7_dependency_result_shape [("Z", ["B", "C"]), ("A", ["Z"])]
    (by decide)).1
  refine (h ⟨"Z", "B | C", 2⟩).mpr ⟨("Z", ["B", "C"]), by simp, by decide, ?_⟩
  decide

/-- Claim C8: the usage count of a field is a distinct-context
cardinality.  For every document and field, the count equals the number
of worksheet elements whose field set contains the field plus the number
of dashboard elements whose field set contains it — so each worksheet and
each dashboard contributes at most 1, and exactly 1 when the field is in
its set; a worksheet's set contains the field iff the canonicalized name
appears among that worksheet's non-Parameters dependency-listing column
instances, its encoding field attributes, or its row/column shelf texts
(no matter how many raw occurrences); a dashboard's set is drawn from its
encoding attributes only. -/
theorem C8_usage_count_context_cardinality (root : Xml) (field : String) :
    count_worksheet_field_usage root field
      = ((findAllTag root "worksheet").countP
            (fun w => decide (field ∈ get_worksheet_fields w)))
        + ((findAllTag root "dashboard").countP
            (fun d => decide (field ∈ get_dashboard_fields d))) ∧
    (∀ w, field ∈ get_worksheet_fields w ↔
      (field ∈ ws_column_instance_fields w ∨ field ∈ encoding_fields w ∨
        field ∈ ws_shelf_fields w)) ∧
    (∀ d, field ∈ get_dashboard_fields d ↔ field ∈ encoding_fields d) := by
  refine ⟨?_, ?_, ?_⟩
  · unfold count_worksheet_field_usage
    rw [foldl_contexts_count (findAllTag root "dashboard") get_dashboard_fields
      (fun d _ => nodup_foldl_setAdd _ _ List.nodup_nil)]
    rw [foldl_contexts_count (findAllTag root "worksheet") get_worksheet_fields
      (fun w _ => nodup_foldl_setAdd _ _ List.nodup_nil)]
    omega
  · intro w
    unfold get_worksheet_fields
    rw [mem_foldl_setAdd]
    simp [or_assoc]
  · intro d
    unfold get_dashboard_fields
    rw [mem_foldl_setAdd]
    simp

theorem getLast?_cons_or {α : Type} :
    ∀ (l : List α) (x : α), (x :: l).getLast? = l.getLast?.or (some x)
  | [], _ => rfl
  | y :: t, x => by
      rw [List.getLast?_cons_cons, getLast?_cons_or t y]
      cases t.getLast? <;> rfl

theorem getLast?_append_or {α : Type} :
    ∀ (a b : List α), (a ++ b).getLast? = b.getLast?.or a.getLast?
  | [], b => by
      rw [List.nil_append]
      cases b.getLast? <;> rfl
  | x :: a', b => by
      rw [List.cons_append, getLast?_cons_or (a' ++ b) x,
        getLast?_append_or a' b, getLast?_cons_or a' x]
      cases b.getLast? <;> cases a'.getLast? <;> rfl

theorem add_edge_nodes (g : NxDiGraph) (a b : String) :
    (g.add_edge a b).nodes = g.nodes := by
  unfold NxDiGraph.add_edge
  split <;> rfl

theorem dget_consumer_fold (ft : List (String × String)) (s : String)
    (raws : List String) (g : NxDiGraph) (n : String) :
    (dget ((raws.foldl (processConsumer ft s) g).nodes) n).map
        NodeData.used_times
      = ((raws.filterMap fun raw =>
            if pyStrip raw ≠ "" ∧ pyStrip raw = n then some 0
            else none)).getLast?.or
          ((dget g.nodes n).map NodeData.used_times) := by
  induction raws generalizing g with
  | nil =>
      simp only [List.foldl_nil, List.filterMap_nil, List.getLast?_nil]
      cases dget g.nodes n <;> rfl
  | cons raw rest ih =>
      rw [List.foldl_cons, List.filterMap_cons, ih]
      by_cases hne : pyStrip raw ≠ ""
      · by_cases heq : pyStrip raw = n
        · have hcond : (pyStrip raw ≠ "" ∧ pyStrip raw = n) := ⟨hne, heq⟩
          rw [if_pos hcond]
          have hg : dget ((processConsumer ft s g raw).nodes) n
              = some { field_type := (dget ft (pyStrip raw)).getD
                          "Calculated Field",
                       used_times := 0, node_type := "dependent" } := by
            unfold processConsumer
            rw [if_pos hne, add_edge_nodes]
            show dget (dictSet g.nodes (pyStrip raw) _) n = _
            rw [dget_dictSet, if_pos heq.symm]
          rw [hg, getLast?_cons_or]
          cases ((rest.filterMap fun raw =>
            if pyStrip raw ≠ "" ∧ pyStrip raw = n then some 0
            else none)).getLast? <;> rfl
        · have hcond : ¬ (pyStrip raw ≠ "" ∧ pyStrip raw = n) := by
            intro hc
            exact heq hc.2
          rw [if_neg hcond]
          have hg : dget ((processConsumer ft s g raw).nodes) n
              = dget g.nodes n := by
            unfold processConsumer
            rw [if_pos hne, add_edge_nodes]
            show dget (dictSet g.nodes (pyStrip raw) _) n = _
            rw [dget_dictSet, if_neg (fun hh => heq hh.symm)]
          rw [hg]
      · have hcond : ¬ (pyStrip raw ≠ "" ∧ pyStrip raw = n) := by
          intro hc
          exact hne hc.1
        rw [if_neg hcond]
        have hg : processConsumer ft s g raw = g := by
          unfold processConsumer
          rw [if_neg hne]
        rw [hg]

theorem consumer_writes_eq (raws : List String) (n : String) :
    (raws.filterMap fun raw =>
        if pyStrip raw ≠ "" ∧ pyStrip raw = n then some 0 else none)
      = ((raws.map pyStrip).filter (fun c => c ≠ "")).filterMap
          (fun c => if c = n then some (0 : Nat) else none) := by
  induction raws with
  | nil => rfl
  | cons raw rest ih =>
      by_cases hne : pyStrip raw = ""
      · simp [List.filterMap_cons, List.filter_cons, hne, ih]
      · by_cases heq : pyStrip raw = n
        · have hn : ¬ (n = "") := heq ▸ hne
          simp [List.filterMap_cons, List.filter_cons, hne, heq, hn, ih]
        · simp [List.filterMap_cons, List.filter_cons, hne, heq, ih]

theorem dget_process_record (ft : List (String × String)) (g : NxDiGraph)
    (r : DepRecord) (n : String) :
    (dget ((processRecord ft g r).nodes) n).map NodeData.used_times
      = ((if r.field_name = n then [r.used_times] else []) ++
          (recordConsumers r).filterMap
            (fun c => if c = n then some 0 else none)).getLast?.or
          ((dget g.nodes n).map NodeData.used_times) := by
  unfold processRecord
  rw [dget_consumer_fold, consumer_writes_eq]
  unfold recordConsumers
  rw [getLast?_append_or]
  have hsrc : (dget ((g.add_node r.field_name
      { field_type := (dget ft r.field_name).getD "Unknown",
        used_times := r.used_times,
        node_type := "source" }).nodes) n).map NodeData.used_times
      = ((if r.field_name = n then [r.used_times] else []).getLast?).or
          ((dget g.nodes n).map NodeData.used_times) := by
    show (dget (dictSet g.nodes r.field_name _) n).map NodeData.used_times = _
    rw [dget_dictSet]
    by_cases h : r.field_name = n
    · rw [if_pos h.symm, if_pos h]
      rfl
    · rw [if_neg (fun hh => h hh.symm), if_neg h]
      cases (dget g.nodes n).map NodeData.used_times <;> rfl
  rw [hsrc]
  cases (((splitPipe r.where_used).map pyStrip).filter
      (fun c => c ≠ "")).filterMap (fun c => if c = n then some (0 : Nat)
        else none) |>.getLast? <;>
    cases (if r.field_name = n then [r.used_times] else []).getLast? <;>
      cases (dget g.nodes n).map NodeData.used_times <;> rfl

theorem dget_record_fold (ft : List (String × String))
    (results : List DepRecord) (g : NxDiGraph) (n : String) :
    (dget ((results.foldl (processRecord ft) g).nodes) n).map
        NodeData.used_times
      = (usedTimesWrites results n).getLast?.or
          ((dget g.nodes n).map NodeData.used_times) := by
  induction results generalizing g with
  | nil =>
      simp only [List.foldl_nil, usedTimesWrites, List.flatMap_nil,
        List.getLast?_nil]
      cases dget g.nodes n <;> rfl
  | cons r rest ih =>
      rw [List.foldl_cons, ih]
      unfold usedTimesWrites
      rw [List.flatMap_cons, getLast?_append_or, dget_process_record]
      cases (rest.flatMap fun r =>
          (if r.field_name = n then [r.used_times] else []) ++
            (recordConsumers r).filterMap
              (fun c => if c = n then some 0 else none)).getLast? <;>
        cases ((if r.field_name = n then [r.used_times] else []) ++
          (recordConsumers r).filterMap
            (fun c => if c = n then some 0 else none)).getLast? <;>
          cases (dget g.nodes n).map NodeData.used_times <;> rfl

/-- Counterexample to claim C1 as stated: from the dependencies map
`Z ↦ set(B, C), A ↦ set(Z)` the analyzer publishes the records
`(Z, "B | C", 2)` then `(A, "Z", 1)` (its actual sorted output).  `Z` is
a source with two distinct consumers, yet in the graph built from these
records `Z`'s `used_times` attribute is `0` (and its role `dependent`):
processing record `A` re-adds node `Z` as a consumer and NetworkX's
`add_node` overwrites the attributes of an existing node. -/
theorem C1_counterexample :
    create_dependency_results [("Z", ["B", "C"]), ("A", ["Z"])]
      = [⟨"Z", "B | C", 2⟩, ⟨"A", "Z", 1⟩] ∧
    dget (create_dependencies_network
        (create_dependency_results [("Z", ["B", "C"]), ("A", ["Z"])])
        []).nodes "Z"
      = some { field_type := "Calculated Field", used_times := 0,
               node_type := "dependent" } := by
  constructor <;> decide

/-- Claim C1 (amended): in the graph built by
`create_dependencies_network`, a node's `used_times` attribute equals the
last value written for it in record order — its record's `used_times`
where it last occurs as a source, `0` where it last occurs as a stripped
non-empty consumer — because `add_node` on an existing node overwrites
its attributes.  The claimed property (source nodes keep their consumer
count) therefore holds exactly when the node does not occur as a consumer
in any record processed after its own; a node that only ever occurs as a
consumer has `used_times = 0`. -/
theorem C1_used_times_last_write (results : List DepRecord)
    (field_types : List (String × String)) (n : String) :
    (dget (create_dependencies_network results field_types).nodes n).map
        NodeData.used_times
      = (usedTimesWrites results n).getLast? := by
  unfold create_dependencies_network
  rw [dget_record_fold]
  cases (usedTimesWrites results n).getLast? <;> rfl

theorem add_node_edges (g : NxDiGraph) (k : String) (d : NodeData) :
    (g.add_node k d).edges = g.edges := rfl

theorem add_edge_edges (g : NxDiGraph) (a b : String) :
    (g.add_edge a b).edges
      = if (a, b) ∈ g.edges then g.edges else g.edges ++ [(a, b)] := by
  unfold NxDiGraph.add_edge
  split <;> simp [*]

theorem splitPipe_joinPipe (names : List String) (hne : names ≠ [])
    (hp : ∀ nm ∈ names, '|' ∉ nm.data) :
    splitPipe (joinPipe names) = names := by
  unfold splitPipe joinPipe
  rw [show (String.mk (joinPipeL (names.map (·.data)))).data
      = joinPipeL (names.map (·.data)) from rfl]
  rw [splitPipeL_joinPipeL (names.map (·.data)) (by simpa using hne) ?hp]
  case hp =>
    intro p hpm
    rw [List.mem_map] at hpm
    obtain ⟨nm, hnm, hdat⟩ := hpm
    rw [← hdat]
    exact hp nm hnm
  rw [List.map_map]
  exact List.map_id names

theorem consumer_fold_edges (ft : List (String × String)) (s : String) :
    ∀ (raws : List String) (g : NxDiGraph),
      (∀ c ∈ (raws.map pyStrip).filter (fun c => c ≠ ""), (s, c) ∉ g.edges) →
      ((raws.map pyStrip).filter (fun c => c ≠ "")).Nodup →
      (raws.foldl (processConsumer ft s) g).edges
        = g.edges ++ ((raws.map pyStrip).filter (fun c => c ≠ "")).map
            (fun c => (s, c))
  | [], g, _, _ => by simp
  | raw :: rest, g, hfresh, hnodup => by
      rw [List.foldl_cons]
      by_cases hd : pyStrip raw = ""
      · have hfilter : ((raw :: rest).map pyStrip).filter (fun c => c ≠ "")
            = (rest.map pyStrip).filter (fun c => c ≠ "") := by
          simp [List.filter_cons, hd]
        rw [hfilter] at hfresh hnodup ⊢
        have hg : processConsumer ft s g raw = g := by
          unfold processConsumer
          simp [hd]
        rw [hg]
        exact consumer_fold_edges ft s rest g hfresh hnodup
      · have hfilter : ((raw :: rest).map pyStrip).filter (fun c => c ≠ "")
            = pyStrip raw :: (rest.map pyStrip).filter (fun c => c ≠ "") := by
          simp [List.filter_cons, hd]
        rw [hfilter] at hfresh hnodup
        rw [hfilter]
        obtain ⟨hhead, htail⟩ := List.nodup_cons.mp hnodup
        have hfr : (s, pyStrip raw) ∉ g.edges :=
          hfresh (pyStrip raw) (List.mem_cons_self _ _)
        have hg : (processConsumer ft s g raw).edges
            = g.edges ++ [(s, pyStrip raw)] := by
          unfold processConsumer
          rw [if_pos (by simpa using hd)]
          rw [add_edge_edges]
          simp only [add_node_edges]
          rw [if_neg hfr]
        have hg2 : (processConsumer ft s g raw).nodes
            = (processConsumer ft s g raw).nodes := rfl
        have hrec := consumer_fold_edges ft s rest (processConsumer ft s g raw)
          (by
            intro c hc hcmem
            rw [hg] at hcmem
            rcases List.mem_append.mp hcmem with hm | hm
            · exact hfresh c (List.mem_cons_of_mem _ hc) hm
            · have : c = pyStrip raw := by
                have := List.mem_singleton.mp hm
                exact congrArg Prod.snd this
              exact hhead (this ▸ hc))
          htail
        rw [hrec, hg, List.append_assoc]
        rfl

theorem consumer_fold_edges_src (ft : List (String × String)) (s : String) :
    ∀ (raws : List String) (g : NxDiGraph), ∃ extra,
      (raws.foldl (processConsumer ft s) g).edges = g.edges ++ extra ∧
        ∀ e ∈ extra, e.1 = s
  | [], g => ⟨[], by simp, by simp⟩
  | raw :: rest, g => by
      rw [List.foldl_cons]
      obtain ⟨extra, hex, hsrc⟩ :=
        consumer_fold_edges_src ft s rest (processConsumer ft s g raw)
      by_cases hd : pyStrip raw = ""
      · have hg : processConsumer ft s g raw = g := by
          unfold processConsumer
          simp [hd]
        rw [hg] at hex ⊢
        exact ⟨extra, hex, hsrc⟩
      · have hg : (processConsumer ft s g raw).edges
            = if (s, pyStrip raw) ∈ g.edges then g.edges
              else g.edges ++ [(s, pyStrip raw)] := by
          unfold processConsumer
          rw [if_pos (by simpa using hd)]
          rw [add_edge_edges]
          rfl
        by_cases hmem : (s, pyStrip raw) ∈ g.edges
        · rw [hg, if_pos hmem] at hex
          exact ⟨extra, hex, hsrc⟩
        · rw [hg, if_neg hmem, List.append_assoc] at hex
          refine ⟨(s, pyStrip raw) :: extra, hex, ?_⟩
          intro e he
          rcases List.mem_cons.mp he with he | he
          · rw [he]
          · exact hsrc e he

theorem processRecord_edges (ft : List (String × String)) (g : NxDiGraph)
    (r : DepRecord) :
    ∃ extra, (processRecord ft g r).edges = g.edges ++ extra ∧
      ∀ e ∈ extra, e.1 = r.field_name := by
  unfold processRecord
  obtain ⟨extra, hex, hsrc⟩ := consumer_fold_edges_src ft r.field_name
    (splitPipe r.where_used)
    (g.add_node r.field_name
      { field_type := (dget ft r.field_name).getD "Unknown",
        used_times := r.used_times, node_type := "source" })
  exact ⟨extra, hex, hsrc⟩

theorem record_fold_edges_ne (ft : List (String × String)) (s : String) :
    ∀ (results : List DepRecord) (g : NxDiGraph),
      (∀ r ∈ results, r.field_name ≠ s) →
      ∃ extra, (results.foldl (processRecord ft) g).edges = g.edges ++ extra ∧
        ∀ e ∈ extra, ¬ e.1 = s
  | [], g, _ => ⟨[], by simp, by simp⟩
  | r :: rest, g, h => by
      rw [List.foldl_cons]
      obtain ⟨e1, he1, hs1⟩ := processRecord_edges ft g r
      obtain ⟨e2, he2, hs2⟩ := record_fold_edges_ne ft s rest
        (processRecord ft g r)
        (fun r' hr' => h r' (List.mem_cons_of_mem _ hr'))
      refine ⟨e1 ++ e2, ?_, ?_⟩
      · rw [he2, he1, List.append_assoc]
      · intro e he
        rcases List.mem_append.mp he with he | he
        · rw [hs1 e he]
          exact h r (List.mem_cons_self _ _)
        · exact hs2 e he

theorem results_names_nodup (deps : List (String × List String))
    (hkeys : (deps.map Prod.fst).Nodup) :
    ((create_dependency_results deps).map DepRecord.field_name).Nodup := by
  unfold create_dependency_results
  rw [((perm_sortLe depRecLe _).map DepRecord.field_name).nodup_iff]
  revert hkeys
  induction deps with
  | nil => simp
  | cons p t ih =>
      intro hkeys
      rw [List.map_cons, List.nodup_cons] at hkeys
      obtain ⟨hnotin, htail⟩ := hkeys
      rw [List.filterMap_cons]
      by_cases hne : p.2 = []
      · rw [if_pos hne]
        exact ih htail
      · rw [if_neg hne, List.map_cons, List.nodup_cons]
        refine ⟨?_, ih htail⟩
        intro hmem
        apply hnotin
        rw [List.mem_map] at hmem
        obtain ⟨r, hr, hrname⟩ := hmem
        rw [List.mem_filterMap] at hr
        obtain ⟨q, hq, hfq⟩ := hr
        by_cases hqe : q.2 = []
        · rw [if_pos hqe] at hfq
          exact absurd hfq (by simp)
        · rw [if_neg hqe] at hfq
          have hqr := Option.some.inj hfq
          have h1 : q.1 = r.field_name := by rw [← hqr]
          rw [List.mem_map]
          exact ⟨q, hq, by rw [h1, hrname]⟩

theorem mem_create_dependency_results (deps : List (String × List String))
    (p : String × List String) (hp : p ∈ deps) (hne : p.2 ≠ []) :
    ({ field_name := p.1, where_used := joinPipe (sortStrings p.2),
       used_times := p.2.length } : DepRecord)
      ∈ create_dependency_results deps := by
  unfold create_dependency_results
  rw [mem_sortLe, List.mem_filterMap]
  exact ⟨p, hp, by rw [if_neg hne]⟩

theorem processRecord_edges_fresh (ft : List (String × String))
    (g : NxDiGraph) (r : DepRecord)
    (hfr : ∀ c ∈ ((splitPipe r.where_used).map pyStrip).filter
        (fun c => c ≠ ""), (r.field_name, c) ∉ g.edges)
    (hnd : (((splitPipe r.where_used).map pyStrip).filter
        (fun c => c ≠ "")).Nodup) :
    (processRecord ft g r).edges
      = g.edges ++ (((splitPipe r.where_used).map pyStrip).filter
          (fun c => c ≠ "")).map (fun c => (r.field_name, c)) := by
  unfold processRecord
  rw [consumer_fold_edges ft r.field_name (splitPipe r.where_used) _ ?h1 ?h2]
  case h1 =>
    intro c hc hcm
    rw [add_node_edges] at hcm
    exact hfr c hc hcm
  case h2 => exact hnd
  rw [add_node_edges]

/-- Counterexample to claim C10 as stated: for the dependencies map
`X ↦ set("")` (one consumer whose display name is empty — reachable, since
a calculated column named `[]` with empty caption gets display name `""`),
the emitted record is `(X, "", 1)`.  No consumer name contains `" | "`,
yet splitting `where_used` yields the single empty name — not a non-empty
one — and the graph builder, which strips and drops empty fragments, adds
0 outgoing edges for the record's source instead of `used_times = 1`. -/
theorem C10_counterexample :
    create_dependency_results [("X", [""])]
      = [{ field_name := "X", where_used := "", used_times := 1 }] ∧
    splitPipe "" = [""] ∧
    (create_dependencies_network
        (create_dependency_results [("X", [""])]) []).edges = [] := by
  refine ⟨by decide, by decide, by decide⟩

/-- Claim C10 (amended): every emitted dependency record has
`used_times ≥ 1`; and for a source whose consumer names are all non-empty,
free of the pipe character, and invariant under whitespace stripping, the
published record's `where_used` splits on `" | "` back into exactly the
sorted consumer names — `used_times` many, distinct and non-empty — and
the graph builder adds exactly `used_times` outgoing edges for that
record's source.  (The original claim assumed only that no name contains
`" | "`; the counterexample shows the non-emptiness/stripping conditions
are necessary.) -/
theorem C10_emitted_record_invariant (deps : List (String × List String))
    (ft : List (String × String))
    (hkeys : (deps.map Prod.fst).Nodup)
    (hsets : ∀ p ∈ deps, p.2.Nodup) :
    (∀ r ∈ create_dependency_results deps, 1 ≤ r.used_times) ∧
    (∀ p ∈ deps, p.2 ≠ [] →
      (∀ c ∈ p.2, c ≠ "" ∧ '|' ∉ c.data ∧ pyStrip c = c) →
      ({ field_name := p.1, where_used := joinPipe (sortStrings p.2),
         used_times := p.2.length } : DepRecord)
          ∈ create_dependency_results deps ∧
      splitPipe (joinPipe (sortStrings p.2)) = sortStrings p.2 ∧
      (sortStrings p.2).Nodup ∧
      (∀ c ∈ sortStrings p.2, c ≠ "") ∧
      (sortStrings p.2).length = p.2.length ∧
      ((create_dependencies_network (create_dependency_results deps)
          ft).edges.countP (fun e => decide (e.1 = p.1))) = p.2.length) := by
  constructor
  · intro r hr
    unfold create_dependency_results at hr
    rw [mem_sortLe, List.mem_filterMap] at hr
    obtain ⟨p, hp, hfp⟩ := hr
    by_cases hne : p.2 = []
    · rw [if_pos hne] at hfp
      exact absurd hfp (by simp)
    · rw [if_neg hne] at hfp
      have hrp := Option.some.inj hfp
      rw [← hrp]
      exact List.length_pos.mpr hne
  · intro p hp hne hgood
    have hmemiff : ∀ c, c ∈ sortStrings p.2 ↔ c ∈ p.2 :=
      fun c => mem_sortLe strLeB p.2 c
    have hsorted_ne : sortStrings p.2 ≠ [] := by
      intro hnil
      apply hne
      have hl : (sortStrings p.2).length = p.2.length :=
        length_sortLe strLeB p.2
      rw [hnil] at hl
      exact List.eq_nil_of_length_eq_zero hl.symm
    have hround : splitPipe (joinPipe (sortStrings p.2)) = sortStrings p.2 :=
      splitPipe_joinPipe _ hsorted_ne
        (fun nm hnm => (hgood nm ((hmemiff nm).mp hnm)).2.1)
    have hnodup : (sortStrings p.2).Nodup := nodup_sortLe _ _ (hsets p hp)
    have hnonempty : ∀ c ∈ sortStrings p.2, c ≠ "" :=
      fun c hc => (hgood c ((hmemiff c).mp hc)).1
    have hlen : (sortStrings p.2).length = p.2.length := length_sortLe _ _
    have hmemrec := mem_create_dependency_results deps p hp hne
    refine ⟨hmemrec, hround, hnodup, hnonempty, hlen, ?_⟩
    obtain ⟨l1, l2, hsplit⟩ := List.append_of_mem hmemrec
    have hnodnames := results_names_nodup deps hkeys
    rw [hsplit, List.map_append, List.map_cons] at hnodnames
    have hmid := List.nodup_middle.mp hnodnames
    obtain ⟨hnotin, _⟩ := List.nodup_cons.mp hmid
    have hl1 : ∀ r' ∈ l1, r'.field_name ≠ p.1 := by
      intro r' hr' heq
      apply hnotin
      rw [List.mem_append]
      left
      rw [List.mem_map]
      exact ⟨r', hr', heq⟩
    have hl2 : ∀ r' ∈ l2, r'.field_name ≠ p.1 := by
      intro r' hr' heq
      apply hnotin
      rw [List.mem_append]
      right
      rw [List.mem_map]
      exact ⟨r', hr', heq⟩
    unfold create_dependencies_network
    rw [hsplit, List.foldl_append, List.foldl_cons]
    obtain ⟨e1, he1, hs1⟩ :=
      record_fold_edges_ne ft p.1 l1 NxDiGraph.empty hl1
    have hmapid : ∀ l : List String, (∀ c ∈ l, pyStrip c = c) →
        l.map pyStrip = l := by
      intro l
      induction l with
      | nil => intro; rfl
      | cons a t ih =>
          intro h
          rw [List.map_cons, h a (List.mem_cons_self a t),
            ih (fun c hc => h c (List.mem_cons_of_mem _ hc))]
    have hcleaned : ((splitPipe (joinPipe (sortStrings p.2))).map
        pyStrip).filter (fun c => c ≠ "") = sortStrings p.2 := by
      rw [hround]
      rw [hmapid (sortStrings p.2)
        (fun c hc => (hgood c ((hmemiff c).mp hc)).2.2)]
      exact List.filter_eq_self.mpr
        (fun c hc => by simpa using hnonempty c hc)
    have hg1edges : (l1.foldl (processRecord ft) NxDiGraph.empty).edges
        = e1 := he1
    have hfr1 : ∀ c ∈ ((splitPipe (joinPipe (sortStrings p.2))).map
        pyStrip).filter (fun c => c ≠ ""),
        (p.1, c) ∉ (l1.foldl (processRecord ft) NxDiGraph.empty).edges := by
      intro c hc hcm
      rw [hg1edges] at hcm
      exact hs1 (p.1, c) hcm rfl
    have hnd1 : (((splitPipe (joinPipe (sortStrings p.2))).map
        pyStrip).filter (fun c => c ≠ "")).Nodup := by
      rw [hcleaned]
      exact hnodup
    have hrec : (processRecord ft (l1.foldl (processRecord ft) NxDiGraph.empty) ({ field_name := p.1, where_used := joinPipe (sortStrings p.2), used_times := p.2.length } : DepRecord)).edges
        = (l1.foldl (processRecord ft) NxDiGraph.empty).edges
            ++ (sortStrings p.2).map (fun c => (p.1, c)) := by
      have h2 : (processRecord ft (l1.foldl (processRecord ft) NxDiGraph.empty) ({ field_name := p.1, where_used := joinPipe (sortStrings p.2), used_times := p.2.length } : DepRecord)).edges
          = (l1.foldl (processRecord ft) NxDiGraph.empty).edges
              ++ (((splitPipe (joinPipe (sortStrings p.2))).map
                  pyStrip).filter (fun c => c ≠ "")).map
                (fun c => (p.1, c)) :=
        processRecord_edges_fresh ft
          (l1.foldl (processRecord ft) NxDiGraph.empty)
          ({ field_name := p.1, where_used := joinPipe (sortStrings p.2), used_times := p.2.length } : DepRecord) hfr1 hnd1
      rw [hcleaned] at h2
      exact h2
    obtain ⟨e2, he2, hs2⟩ := record_fold_edges_ne ft p.1 l2
      (processRecord ft (l1.foldl (processRecord ft) NxDiGraph.empty) ({ field_name := p.1, where_used := joinPipe (sortStrings p.2), used_times := p.2.length } : DepRecord)) hl2
    rw [he2, hrec, hg1edges]
    rw [List.countP_append, List.countP_append]
    have hc1 : e1.countP (fun e => decide (e.1 = p.1)) = 0 :=
      List.countP_eq_zero.mpr (fun e he => by simpa using hs1 e he)
    have hc2 : e2.countP (fun e => decide (e.1 = p.1)) = 0 :=
      List.countP_eq_zero.mpr (fun e he => by simpa using hs2 e he)
    have hc3 : ((sortStrings p.2).map (fun c => (p.1, c))).countP
        (fun e => decide (e.1 = p.1))
        = ((sortStrings p.2).map (fun c => (p.1, c))).length := by
      rw [List.countP_eq_length]
      intro e he
      rw [List.mem_map] at he
      obtain ⟨c, hc, hce⟩ := he
      rw [← hce]
      simp
    rw [hc1, hc2, hc3, List.length_map, hlen]
    omega

/-- Witness for the amended C10: for the dependencies map
`X ↦ set(b, a)` the published record is in the results and the built
graph has exactly 2 outgoing edges for `X`. -/
theorem C10_emitted_record_invariant_witness :
    ({ field_name := "X", where_used := joinPipe (sortStrings ["b", "a"]),
       used_times := 2 } : DepRecord)
        ∈ create_dependency_results [("X", ["b", "a"])] ∧
    ((create_dependencies_network
        (create_dependency_results [("X", ["b", "a"])]) []).edges.countP
      (fun e => decide (e.1 = "X"))) = 2 := by
  have h := (C10_emitted_record_invariant [("X", ["b", "a"])] []
    (by decide) (by decide)).2 ("X", ["b", "a"]) (by decide) (by decide)
    (by decide)
  exact ⟨h.1, h.2.2.2.2.2⟩

/-- Witness for C9: a missing path yields the not-found error and an
unparseable file propagates its parse diagnostic, for both analyzers. -/
theorem C9_error_handling_witness :
    analyze_field_dependencies (fun _ => FileState.missing) "workbook.twb"
      = .error (.notFound "workbook.twb") ∧
    analyze_fields_usage (fun _ => FileState.unparseable "not well-formed")
      "workbook.twb" = .error (.parseError "not well-formed") := by
  constructor
  · exact (C9_error_handling (fun _ => FileState.missing)
      "workbook.twb").1.1.mpr rfl
  · exact (C9_error_handling (fun _ => FileState.unparseable "not well-formed")
      "workbook.twb").2.2.1 "not well-formed" rfl
